import Mathlib

/-!
Verification of the core components of the `selfevolvingagent` repository:
the text chunker (`agent/core/vector_indexing.py`), the persisted vector
store (`agent/core/vector_store.py`), the file indexer, and the staged LLM
call engine (`agent/core/pipeline.py`).

Python strings are modelled as `List Char`, Python `int` as `Int` (or `Nat`
where the source value is manifestly a length or index), Python `float` as
the real numbers (exact arithmetic idealisation of IEEE 754), Python
exceptions as `Except`/explicit error sums, and instance state as explicit
state passing: a mutating method on an object becomes a function from the
object's state to a result paired with the successor state; a `raise`
statement becomes an error result paired with the state at the moment of
the raise.
-/

namespace Chunker

/-- `TextChunk` from `agent/core/vector_indexing.py`: a deterministic slice
of a source document.  The source's field `end` is called `stop` here
because `end` is a Lean keyword. -/
structure TextChunk where
  text : List Char
  start : Nat
  stop : Nat
  deriving Repr, DecidableEq

/-- First pass of `normalise_newlines`: Python
`text.replace("\r\n", "\n")`, the usual left-to-right non-overlapping
replacement. -/
def replaceCRLF : List Char → List Char
  | [] => []
  | '\r' :: '\n' :: rest => '\n' :: replaceCRLF rest
  | c :: rest => c :: replaceCRLF rest

/-- `normalise_newlines` from `agent/core/vector_indexing.py`:
`text.replace("\r\n", "\n").replace("\r", "\n")` (the second replacement is
a character-wise map). -/
def normalise_newlines (text : List Char) : List Char :=
  (replaceCRLF text).map (fun c => if c = '\r' then '\n' else c)

/-- The `while start < length` loop of `chunk_text`
(`agent/core/vector_indexing.py` lines 60-66).  `t` is the newline
normalised text; each iteration emits the slice
`normalised[start:min(start+chunk_size, length)]` and either stops (the
slice reaches the end of the text) or restarts at `end - overlap`.  The
hypothesis `ho : o < c` is exactly the validation the source performs
before entering the loop and is what makes the loop terminate. -/
def chunkLoop (t : List Char) (c o : Nat) (ho : o < c) (start : Nat) :
    List TextChunk :=
  if _hs : start < t.length then
    ⟨(t.drop start).take (min (start + c) t.length - start), start,
        min (start + c) t.length⟩ ::
      (if he : min (start + c) t.length = t.length then []
       else chunkLoop t c o ho (min (start + c) t.length - o))
  else []
  termination_by t.length - start
  decreasing_by
    have h1 : start + c < t.length := by
      rcases Nat.lt_or_ge (start + c) t.length with h | h
      · exact h
      · exact absurd (Nat.min_eq_right h) he
    have h2 : min (start + c) t.length = start + c := Nat.min_eq_left (Nat.le_of_lt h1)
    omega

/-- `chunk_text` from `agent/core/vector_indexing.py` (lines 42-67).
Validation errors are the source's `ValueError` messages. -/
def chunk_text (text : List Char) (chunk_size overlap : Int) :
    Except String (List TextChunk) :=
  if hcs : chunk_size ≤ 0 then .error "chunk_size must be positive"
  else if hov : overlap < 0 then .error "overlap must be non-negative"
  else if hoc : overlap ≥ chunk_size then .error "overlap must be smaller than chunk_size"
  else
    let normalised := normalise_newlines text
    if normalised.length = 0 then .ok []
    else .ok (chunkLoop normalised chunk_size.toNat overlap.toNat
      (by omega) 0)

end Chunker

/-! ### Decimal rendering shared by snippet-id construction and f-strings -/

namespace Render

/-- Decimal digits of `n`, most significant first, with explicit fuel so the
definition is structural (the fuel `n + 1` always suffices). -/
def digitsAux : Nat → Nat → List Char
  | 0, _ => []
  | fuel + 1, n =>
    if n < 10 then [Char.ofNat (48 + n)]
    else digitsAux fuel (n / 10) ++ [Char.ofNat (48 + n % 10)]

/-- Decimal rendering of a natural number, as Python `str(n)` / `f"{n}"`. -/
def rend (n : Nat) : List Char := digitsAux (n + 1) n

/-- Python `f"{n:04d}"`: decimal rendering left padded with zeros to width
four. -/
def pad4 (n : Nat) : List Char := List.replicate (4 - (rend n).length) '0' ++ rend n

/-- Value of a (padded) decimal digit string; used only to prove that the
renderings above are injective. -/
def valChars (cs : List Char) : Nat := cs.foldl (fun a c => 10 * a + (c.toNat - 48)) 0

end Render

/-! ### The vector store (`agent/core/vector_store.py`)

Embeddings are lists of real numbers (Python floats, idealised as exact
reals).  A Python `dict` is an insertion-ordered association list whose
keys are unique.  The optional FAISS/NumPy dependencies are absent in the
modelled configuration (`faiss = None`, `np = None`, source lines 13-21),
so `_use_faiss and faiss is not None and np is not None` is always false
and every query takes the `_query_python` brute-force path; the
`_faiss_index`/`_faiss_ids`/`_faiss_dirty` cache fields are therefore not
modelled.  Methods are state passing: a method that raises returns the
error together with the state the object had at the moment of the raise. -/

namespace Store

/-- A parsed JSON value (the result of `json.loads`, and the argument of
`json.dumps`).  JSON numbers are modelled as reals. -/
inductive JVal where
  | jnull
  | jbool (b : Bool)
  | jnum (x : ℝ)
  | jstr (s : String)
  | jarr (elems : List JVal)
  | jobj (fields : List (String × JVal))

noncomputable instance : DecidableEq JVal := fun _ _ => Classical.dec _

/-- `dict.get` on the field list of a JSON object (first, hence only,
binding of the key). -/
def jGetFields (fields : List (String × JVal)) (k : String) : Option JVal :=
  (fields.find? (fun p => p.1 == k)).map Prod.snd

/-- Python exceptions that the vector store and indexer can raise.
`vectorStoreError` is the store's own `VectorStoreError`; the others are
builtin exception types.  The data interpolated into the source's f-string
messages is kept structurally in `VSMsg` instead of being rendered. -/
inductive VSMsg where
  | versionMismatch (actual : JVal) (expected : Nat)
  | emptyEmbedding
  | dimMismatch (expected : Int) (got : Nat)
  | queryDimMismatch (expected : Int) (got : Nat)
  | notInitialised

inductive PyErr where
  | vectorStoreError (msg : VSMsg)
  | jsonDecodeError
  | keyError (key : String)
  | attributeError
  | typeError
  | valueError (msg : String)
  | indexError

/-- Whether an exception is the store's `VectorStoreError` type. -/
def PyErr.isVectorStoreError : PyErr → Bool
  | .vectorStoreError _ => true
  | _ => false

/-- Metadata mapping of a record (`Dict[str, Any]`, values being JSON-like
data in every use in this repository). -/
def Metadata := List (String × JVal)

/-- `VectorRecord` from `agent/core/vector_store.py`. -/
structure VectorRecord where
  snippet_id : String
  embedding : List ℝ
  content : String
  metadata : Metadata

/-- `QueryResult` from `agent/core/vector_store.py`. -/
structure QueryResult where
  snippet_id : String
  score : ℝ
  content : String
  metadata : Metadata

/-- The mutable state of a `VectorStore` instance: `_default_dim` (the
`embedding_dim` constructor argument, default 256), `_embedding_fn`,
`_records`, `_dimension` and `_dirty`. -/
structure VectorStore where
  default_dim : Int
  embedding_fn : String → Int → List ℝ
  records : List (String × VectorRecord)
  dimension : Option Int
  dirty : Bool

/-- `self._records[k] = v` on an insertion-ordered dict: overwrite in place
if the key is present, append otherwise. -/
def dictSet {β : Type} : List (String × β) → String → β → List (String × β)
  | [], k, v => [(k, v)]
  | (k', v') :: rest, k, v =>
      if k' = k then (k, v) :: rest else (k', v') :: dictSet rest k v

/-- `del self._records[k]`: remove the (unique) binding of `k`. -/
def dictDelete {β : Type} : List (String × β) → String → List (String × β)
  | [], _ => []
  | (k', v') :: rest, k => if k' = k then rest else (k', v') :: dictDelete rest k

/-- `self._records.values()` in insertion order. -/
def dictVals {β : Type} (m : List (String × β)) : List β := m.map Prod.snd

/-- `k in self._records`. -/
def dictHasKey {β : Type} (m : List (String × β)) (k : String) : Bool :=
  (m.find? (fun p => p.1 == k)).isSome

/-- `_normalise_embedding` (vector_store.py lines 32-37).  The `float(v)`
coercion of line 33 is the identity here because the callers pass real
lists already; for `load` the coercion from JSON values is performed by
`pyFloat` below before this function is applied. -/
noncomputable def _normalise_embedding (values : List ℝ) : List ℝ :=
  let norm := Real.sqrt ((values.map (fun v => v * v)).sum)
  if norm = 0 then values.map (fun _ => 0) else values.map (fun v => v / norm)

/-- `VectorStore.upsert` (lines 153-180).  The `if not embedding` check is
list emptiness; a dimensionality mismatch raises before any state is
mutated. -/
noncomputable def upsert (s : VectorStore) (snippet_id : String)
    (embedding : List ℝ) (content : String) (metadata : Metadata) :
    Except PyErr Unit × VectorStore :=
  match embedding with
  | [] => (.error (.vectorStoreError .emptyEmbedding), s)
  | _ :: _ =>
    let normalised := _normalise_embedding embedding
    let record : VectorRecord := ⟨snippet_id, normalised, content, metadata⟩
    match s.dimension with
    | none =>
        (.ok (), { s with
          dimension := some (normalised.length : Int)
          records := dictSet s.records snippet_id record
          dirty := true })
    | some d =>
        if (normalised.length : Int) ≠ d then
          (.error (.vectorStoreError (.dimMismatch d normalised.length)), s)
        else
          (.ok (), { s with
            records := dictSet s.records snippet_id record
            dirty := true })

/-- `self._dimension or self._default_dim` (falsy `or`: `None` and `0` both
fall back to the default). -/
def dimOrDefault (s : VectorStore) : Int :=
  match s.dimension with
  | some d => if d = 0 then s.default_dim else d
  | none => s.default_dim

/-- `VectorStore.add_text` (lines 182-193). -/
noncomputable def add_text (s : VectorStore) (snippet_id : String)
    (text : String) (metadata : Metadata) : Except PyErr Unit × VectorStore :=
  let dim := dimOrDefault s
  let embedding := s.embedding_fn text dim
  upsert s snippet_id embedding text metadata

/-- `VectorStore.bulk_upsert` (lines 195-197); an exception from one
`upsert` aborts the remaining ones. -/
noncomputable def bulk_upsert (s : VectorStore) :
    List VectorRecord → Except PyErr Unit × VectorStore
  | [] => (.ok (), s)
  | item :: rest =>
    match upsert s item.snippet_id item.embedding item.content item.metadata with
    | (.ok _, s') => bulk_upsert s' rest
    | (.error e, s') => (.error e, s')

/-- `VectorStore.delete` (lines 199-203). -/
def delete (s : VectorStore) (snippet_id : String) : VectorStore :=
  if dictHasKey s.records snippet_id then
    { s with records := dictDelete s.records snippet_id, dirty := true }
  else s

/-- `VectorStore.delete_where` (lines 294-303): collect matching keys,
delete them, return the number removed, and mark the store dirty only when
something was removed. -/
def delete_where (s : VectorStore) (pred : VectorRecord → Bool) :
    Nat × VectorStore :=
  let to_delete := (s.records.filter (fun p => pred p.2)).map Prod.fst
  let records := to_delete.foldl (fun m k => dictDelete m k) s.records
  (to_delete.length,
    { s with
      records := records
      dirty := if to_delete.isEmpty then s.dirty else true })

/-- `VectorStore.delete_by_path` (lines 305-316).  `path.replace(os.sep,
"/")` is the identity on POSIX systems and is modelled as such. -/
noncomputable def delete_by_path (s : VectorStore) (path : String) :
    Nat × VectorStore :=
  delete_where s (fun record => decide (jGetFields record.metadata "path" = some (.jstr path)))

/-- Dot product `sum(a * b for a, b in zip(embedding, record.embedding))`
(line 237); `zip` truncates to the shorter list. -/
def dotZip (a b : List ℝ) : ℝ := (List.zipWith (· * ·) a b).sum

/-- The stable descending sort modelling
`scored.sort(key=lambda item: item.score, reverse=True)` (line 246):
insertion sort placing each element before the first element whose score is
not greater, which preserves the original order of equal scores exactly as
Python's stable sort with `reverse=True` does. -/
noncomputable def sortDesc (l : List QueryResult) : List QueryResult :=
  l.insertionSort (fun a b => b.score ≤ a.score)

/-- Python list slicing `l[:k]` for an arbitrary (possibly negative) `k`. -/
def pySlice {α : Type} (l : List α) (k : Int) : List α :=
  if k < 0 then l.take ((l.length : Int) + k).toNat else l.take k.toNat

/-- `VectorStore._query_python` (lines 234-247). -/
noncomputable def _query_python (s : VectorStore) (embedding : List ℝ)
    (top_k : Int) : List QueryResult :=
  let scored := (dictVals s.records).map (fun record =>
    (⟨record.snippet_id, dotZip embedding record.embedding, record.content,
      record.metadata⟩ : QueryResult))
  pySlice (sortDesc scored) top_k

/-- `VectorStore.query` (lines 208-222).  The FAISS branch (line 219) is
never taken because the optional dependencies are absent. -/
noncomputable def query (s : VectorStore) (embedding : List ℝ)
    (top_k : Int) : Except PyErr (List QueryResult) × VectorStore :=
  match s.records with
  | [] => (.ok [], s)
  | _ :: _ =>
    match s.dimension with
    | none => (.error (.vectorStoreError .notInitialised), s)
    | some d =>
      let normalised := _normalise_embedding embedding
      if (normalised.length : Int) ≠ d then
        (.error (.vectorStoreError (.queryDimMismatch d normalised.length)), s)
      else
        (.ok (_query_python s normalised top_k), s)

/-- `VectorStore.query_text` (lines 224-229); `if not text.strip()` is
modelled with `String.trim`. -/
noncomputable def query_text (s : VectorStore) (text : String)
    (top_k : Int) : Except PyErr (List QueryResult) × VectorStore :=
  if text.trim = "" then (.ok [], s)
  else
    let dim := dimOrDefault s
    let embedding := s.embedding_fn text dim
    query s embedding top_k

/-- Serialisation of a metadata value back to JSON (metadata is JSON-like
data already). -/
def metaFieldsToJ (md : Metadata) : JVal := .jobj md

/-- `VectorStore.save` (lines 129-148): returns the JSON payload written to
disk, or `none` when the dirty flag is clear and no write happens. -/
noncomputable def save (s : VectorStore) : Option JVal × VectorStore :=
  if !s.dirty then (none, s)
  else
    (some (.jobj [
      ("version", .jnum 1),
      ("dimension", .jnum (dimOrDefault s)),
      ("records", .jarr ((dictVals s.records).map (fun record => .jobj [
        ("id", .jstr record.snippet_id),
        ("embedding", .jarr (record.embedding.map (fun v => .jnum v))),
        ("content", .jstr record.content),
        ("metadata", metaFieldsToJ record.metadata)])))]),
     { s with dirty := false })

/-- The contents of the backing file as seen by `load`: absent, present but
rejected by `json.loads`, or present and parsing to a JSON value. -/
inductive FileContent where
  | missing
  | invalid
  | content (data : JVal)

/-- Python `int(x)` on a float: truncation toward zero. -/
noncomputable def pyIntOfReal (x : ℝ) : Int := if 0 ≤ x then ⌊x⌋ else ⌈x⌉

/-- Python `int(x)` on a JSON value (numeric strings are parsed; other
types raise). -/
noncomputable def pyInt : JVal → Except PyErr Int
  | .jnum x => .ok (pyIntOfReal x)
  | .jbool b => .ok (if b then 1 else 0)
  | .jstr s => match s.toInt? with
      | some n => .ok n
      | none => .error (.valueError "invalid literal for int")
  | _ => .error .typeError

/-- Python `float(v)` on a JSON value.  Numeric strings are not modelled
(no claim depends on them). -/
def pyFloat : JVal → Except PyErr ℝ
  | .jnum x => .ok x
  | .jbool b => .ok (if b then 1 else 0)
  | .jstr _ => .error (.valueError "could not convert string to float")
  | _ => .error .typeError

/-- Python iteration over a JSON value: lists yield elements, dicts yield
their keys, strings their characters, anything else raises `TypeError`. -/
def pyIter : JVal → Except PyErr (List JVal)
  | .jarr xs => .ok xs
  | .jobj fs => .ok (fs.map (fun p => .jstr p.1))
  | .jstr s => .ok (s.data.map (fun c => .jstr (String.mk [c])))
  | _ => .error .typeError

/-- Python `str(v)` of a JSON value.  The decimal rendering of floats and
containers is not modelled (no claim depends on it); a placeholder tag
stands in for those cases. -/
def pyStr : JVal → String
  | .jstr s => s
  | .jnull => "None"
  | .jbool b => if b then "True" else "False"
  | .jnum _ => "<number>"
  | .jarr _ => "<list>"
  | .jobj _ => "<dict>"

/-- Python `==` between a JSON-decoded value and an `int` constant.
Python numbers compare by value and `bool` is an `int` subclass (`True ==
1`, `False == 0`); strings, `None`, lists and dicts never equal an int. -/
def pyEqInt (v : JVal) (n : Int) : Prop :=
  match v with
  | .jnum x => x = (n : ℝ)
  | .jbool b => (if b then (1 : Int) else 0) = n
  | _ => False

noncomputable instance (v : JVal) (n : Int) : Decidable (pyEqInt v n) :=
  Classical.dec _

/-- One iteration of the record-loading loop of `VectorStore.load` (lines
117-125).  `item.get` on a non-dict raises `AttributeError`; a missing
`"id"` key raises `KeyError`; `item.get("metadata", {}) or {}` falls back
to an empty mapping for falsy values (a truthy non-dict metadata value is
also modelled as the raw field list when it is an object, `[]` otherwise;
no claim depends on that corner). -/
noncomputable def loadOne (s : VectorStore) (item : JVal) :
    Except PyErr Unit × VectorStore :=
  match item with
  | .jobj fs =>
    match pyIter ((jGetFields fs "embedding").getD (.jarr [])) with
    | .error e => (.error e, s)
    | .ok vals =>
      match vals.mapM pyFloat with
      | .error e => (.error e, s)
      | .ok floats =>
        let embedding := _normalise_embedding floats
        match jGetFields fs "id" with
        | none => (.error (.keyError "id"), s)
        | some idv =>
          let sid := pyStr idv
          let content := match (jGetFields fs "content").getD (.jstr "") with
            | .jstr c => c
            | other => pyStr other
          let metadata : Metadata :=
            match (jGetFields fs "metadata").getD (.jobj []) with
            | .jobj mfs => mfs
            | _ => []
          (.ok (),
            { s with records := dictSet s.records sid ⟨sid, embedding, content, metadata⟩ })
  | _ => (.error .attributeError, s)

/-- The record-loading loop of `VectorStore.load`; an exception leaves the
records inserted so far in place. -/
noncomputable def loadRecords (s : VectorStore) :
    List JVal → Except PyErr Unit × VectorStore
  | [] => (.ok (), s)
  | item :: rest =>
    match loadOne s item with
    | (.ok _, s') => loadRecords s' rest
    | (.error e, s') => (.error e, s')

/-- `VectorStore.load` (lines 104-127).  A missing file returns with the
state untouched; text rejected by `json.loads` raises the JSON decoder's
`JSONDecodeError`; a version that Python-compares unequal to
`STORE_VERSION = 1` raises `VectorStoreError` carrying the actual and
expected versions (`bool` being an `int` subclass, a version of JSON
`true` equals `1` and is accepted); otherwise the
dimension is taken from the payload, the records are cleared and reloaded,
and the dirty flag is cleared. -/
noncomputable def load (file : FileContent) (s : VectorStore) :
    Except PyErr Unit × VectorStore :=
  match file with
  | .missing => (.ok (), s)
  | .invalid => (.error .jsonDecodeError, s)
  | .content data =>
    match data with
    | .jobj fields =>
      let version := (jGetFields fields "version").getD (.jnum 0)
      if ¬ pyEqInt version 1 then
        (.error (.vectorStoreError (.versionMismatch version 1)), s)
      else
        match pyInt ((jGetFields fields "dimension").getD (.jnum s.default_dim)) with
        | .error e => (.error e, s)
        | .ok dim =>
          let s1 := { s with dimension := some dim, records := [] }
          match pyIter ((jGetFields fields "records").getD (.jarr [])) with
          | .error e => (.error e, s1)
          | .ok items =>
            match loadRecords s1 items with
            | (.ok _, s2) => (.ok (), { s2 with dirty := false })
            | (.error e, s2) => (.error e, s2)
    | _ => (.error .attributeError, s)

/-- The state a `VectorStore.__init__` builds before calling `self.load()`:
no records, no established dimension, not dirty. -/
def initStore (embedding_dim : Int) (fn : String → Int → List ℝ) : VectorStore :=
  ⟨embedding_dim, fn, [], none, false⟩

/-- The spec's dimensionality invariant: every stored record's embedding
has the store's established dimension. -/
def dimInvariant (s : VectorStore) : Prop :=
  ∀ p ∈ s.records, some ((p.2.embedding.length : Int)) = s.dimension

end Store

/-! ### The indexer (`agent/core/vector_indexing.py`)

Filesystem paths are lists of path segments; the content of the indexed
file (`path.read_text()`) is passed in explicitly, so "the same unchanged
file" means the same text argument. -/

namespace Indexing

open Store

/-- `ALLOWED_ROOTS` from `agent/core/vector_indexing.py`. -/
def ALLOWED_ROOTS : List String := ["docs", "tests"]

/-- `path.relative_to(root)`: strip the leading `root` segments, raising
`ValueError` when `path` is not below `root`. -/
def relative_to (path root : List String) : Except PyErr (List String) :=
  if root.isPrefixOf path then .ok (path.drop root.length)
  else .error (.valueError "path is not in the subpath of root")

/-- `Path.as_posix()`: join segments with `/`. -/
def as_posix (parts : List String) : String := String.intercalate "/" parts

/-- `_build_snippet_id` (lines 85-86):
`f"{relative_path.as_posix()}::chunk-{chunk_index + 1:04d}"`. -/
def _build_snippet_id (relative : List String) (chunk_index : Nat) : String :=
  as_posix relative ++ "::chunk-" ++ String.mk (Render.pad4 (chunk_index + 1))

/-- `_detect_source` (lines 89-93): the first segment of the relative path,
`"unknown"` when there is none. -/
def _detect_source (relative : List String) : String :=
  match relative with
  | top :: _ => top
  | [] => "unknown"

/-- The `for index, chunk in enumerate(chunks)` loop of `index_file`
(lines 115-125): one metadata mapping and one `add_text` per chunk; an
exception aborts the loop with the upserts made so far kept. -/
noncomputable def indexChunks (relative : List String) (label : String)
    (chunk_total : Nat) :
    List Chunker.TextChunk → Nat → VectorStore → Except PyErr Unit × VectorStore
  | [], _, s => (.ok (), s)
  | chunk :: rest, index, s =>
    let metadata : Metadata := [
      ("path", .jstr (as_posix relative)),
      ("source", .jstr label),
      ("chunk_index", .jnum index),
      ("chunk_count", .jnum chunk_total),
      ("char_start", .jnum chunk.start),
      ("char_end", .jnum chunk.stop)]
    let snippet_id := _build_snippet_id relative index
    match add_text s snippet_id (String.mk chunk.text) metadata with
    | (.ok _, s') => indexChunks relative label chunk_total rest (index + 1) s'
    | (.error e, s') => (.error e, s')

/-- `index_file` (lines 96-126).  `text` is the result of
`path.read_text()`.  A relative path outside `ALLOWED_ROOTS` is rejected by
returning zero; `chunk_text`'s `ValueError`s propagate; previously indexed
chunks for the same relative path are deleted before the new chunks are
upserted. -/
noncomputable def index_file (text : List Char) (path root : List String)
    (chunk_size overlap : Int) (s : VectorStore) :
    Except PyErr Nat × VectorStore :=
  match relative_to path root with
  | .error e => (.error e, s)
  | .ok relative =>
    match relative with
    | [] => (.error .indexError, s)
    | top :: _ =>
      if top ∉ ALLOWED_ROOTS then (.ok 0, s)
      else
        match Chunker.chunk_text text chunk_size overlap with
        | .error m => (.error (.valueError m), s)
        | .ok chunks =>
          let chunk_total := chunks.length
          let s1 := (delete_by_path s (as_posix relative)).2
          let source_label := _detect_source relative
          match indexChunks relative source_label chunk_total chunks 0 s1 with
          | (.ok _, s2) => (.ok chunk_total, s2)
          | (.error e, s2) => (.error e, s2)

end Indexing

/-! ### The staged LLM call engine (`agent/core/pipeline.py`)

The external client interaction of one attempt — `responses.create`, the
polling loop, and the dispatch on the terminal status (source lines
312-382) — is abstracted as an environment function giving, for an attempt
number and the model it is made with, either an exception caught by the
handler at line 383 (transport errors, the local `TimeoutError`, the
`RuntimeError`s raised for a failed or non-completed terminal status) or a
completed response's extracted output text (line 341-343; empty when both
`output_text` and the structured parts are empty) and its extracted usage.
`json.loads` is likewise passed in as a function to `Option JVal`
(`none` means it raises `json.JSONDecodeError`).  Timing (`time.sleep`,
deadlines) has no observable effect in this model.  Events appended with
`append_event` are returned as a list in append order. -/

namespace Pipeline

open Store (JVal)

/-- `DEFAULT_MODEL` (pipeline.py line 20). -/
def DEFAULT_MODEL : String := "gpt-5-codex"

/-- `FALLBACK_MODEL` (pipeline.py line 21). -/
def FALLBACK_MODEL : String := "gpt-5"

/-- `ERROR_MESSAGE_MAX_LENGTH` (pipeline.py line 26). -/
def ERROR_MESSAGE_MAX_LENGTH : Int := 240

/-- `StageUsage` (pipeline.py lines 33-49). -/
structure StageUsage where
  input_tokens : Int
  output_tokens : Int
  total_tokens : Int
  deriving DecidableEq, Repr

/-- `ContextClue` (pipeline.py lines 52-59). -/
structure ContextClue where
  identifier : String
  path : Option String
  rationale : String
  content : String
  deriving DecidableEq, Repr

/-- An exception value: the Python type name and the message
(`str(exc)`). -/
structure PyExn where
  excType : String
  msg : List Char
  deriving DecidableEq, Repr

/-- A structured event passed to `append_event`. -/
inductive DV where
  | vs (s : String)
  | vchars (cs : List Char)
  | vn (n : Nat)
  deriving DecidableEq, Repr

structure Event where
  level : String
  source : String
  message : String
  details : List (String × DV)
  deriving DecidableEq, Repr

/-- The outcome of one attempt's client interaction (see the section
comment). -/
inductive AttemptOutcome where
  | raises (excType : String) (msg : List Char)
  | completes (text : List Char) (usage : StageUsage)

/-- `_truncate_message` (pipeline.py lines 203-210). -/
def _truncate_message (message : List Char) (limit : Int) : List Char :=
  if limit ≤ 0 then []
  else if (message.length : Int) ≤ limit then message
  else if limit = 1 then message.take 1
  else message.take (limit - 1).toNat ++ ['…']

/-- `str.lower()`, character-wise. -/
def lowerChars (cs : List Char) : List Char := cs.map Char.toLower

/-- Python `needle in hay` on strings: substring containment. -/
def hasSubstring (needle hay : List Char) : Bool :=
  hay.tails.any (fun t => needle.isPrefixOf t)

/-- The quota-rejection marker tested at pipeline.py line 403. -/
def QUOTA_SNIPPET : List Char := "exceeded your current quota".toList

/-- `details["stage"] = stage` when a stage label is present. -/
def stageDetail (stage : Option String) : List (String × DV) :=
  match stage with
  | some s => [("stage", .vs s)]
  | none => []

/-- The `for attempt in range(1, max_retries + 1)` loop of
`_call_model_json` (pipeline.py lines 311-436) followed by the exhaustion
block after it.  `remaining` counts the loop iterations still to run
(starting at `max_retries`); `attempt`, `currentModel`, `lastError` and
`attemptCount` are the loop variables of the source.  The returned event
list holds the events appended from this point on, in order. -/
def attemptLoop (jsonLoads : List Char → Option JVal)
    (env : Nat → String → AttemptOutcome) (stage : Option String)
    (max_retries : Nat) :
    Nat → Nat → String → Option PyExn → Nat →
    Except PyExn (JVal × StageUsage) × List Event
  | 0, _, currentModel, lastError, attemptCount =>
    match lastError with
    | some e =>
      (.error e,
        [⟨"error", "pipeline", "llm_call_exhausted",
          [("attempts", .vn (if attemptCount = 0 then max_retries else attemptCount)),
           ("model", .vs currentModel),
           ("error_type", .vs e.excType),
           ("error", .vchars (_truncate_message e.msg ERROR_MESSAGE_MAX_LENGTH))] ++
          stageDetail stage⟩])
    | none => (.ok (.jobj [], ⟨0, 0, 0⟩), [])
  | remaining + 1, attempt, currentModel, lastError, attemptCount =>
    match env attempt currentModel with
    | .completes text usage =>
      let completedEvent : Event :=
        ⟨"info", "pipeline", "model_call_completed",
          [("model", .vs currentModel)] ++ stageDetail stage ++
            [("attempts", .vn attempt)]⟩
      if text.isEmpty then (.ok (.jobj [], usage), [completedEvent])
      else
        match jsonLoads text with
        | some payload => (.ok (payload, usage), [completedEvent])
        | none =>
          (.ok (.jobj [], usage),
            [⟨"warning", "pipeline", "model_json_parse_failed",
              [("attempt", .vn attempt),
               ("excerpt", .vchars (_truncate_message text ERROR_MESSAGE_MAX_LENGTH)),
               ("error_type", .vs "JSONDecodeError")] ++ stageDetail stage⟩,
             completedEvent])
    | .raises excType msg =>
      let failEvent : Event :=
        ⟨"warning", "pipeline", "LLM call attempt failed",
          [("attempt", .vn attempt),
           ("model", .vs currentModel),
           ("error_type", .vs excType),
           ("error", .vchars (_truncate_message msg ERROR_MESSAGE_MAX_LENGTH))] ++
          stageDetail stage⟩
      if attempt < max_retries then
        if hasSubstring QUOTA_SNIPPET (lowerChars msg) && (currentModel == DEFAULT_MODEL)
        then
          let fallbackEvent : Event :=
            ⟨"info", "pipeline",
              "Retrying LLM call with fallback model after quota rejection",
              [("attempt", .vn (attempt + 1)), ("model", .vs FALLBACK_MODEL)]⟩
          let rec' := attemptLoop jsonLoads env stage max_retries remaining
            (attempt + 1) FALLBACK_MODEL (some ⟨excType, msg⟩) attempt
          (rec'.1, failEvent :: fallbackEvent :: rec'.2)
        else
          let rec' := attemptLoop jsonLoads env stage max_retries remaining
            (attempt + 1) currentModel (some ⟨excType, msg⟩) attempt
          (rec'.1, failEvent :: rec'.2)
      else
        let rec' := attemptLoop jsonLoads env stage max_retries remaining
          (attempt + 1) currentModel (some ⟨excType, msg⟩) attempt
        (rec'.1, failEvent :: rec'.2)

/-- `_call_model_json` (pipeline.py lines 295-436).  `requestedRetries` is
the value of the `OPENAI_API_MAX_RETRIES` configuration; line 304 clamps it
with `max(1, ...)`. -/
def _call_model_json (jsonLoads : List Char → Option JVal)
    (env : Nat → String → AttemptOutcome) (requestedRetries : Int)
    (model : String) (stage : Option String) :
    Except PyExn (JVal × StageUsage) × List Event :=
  let max_retries := (max 1 requestedRetries).toNat
  attemptLoop jsonLoads env stage max_retries max_retries 1 model none 0

/-- The model the engine uses for a given attempt number, as a recurrence
over the environment: attempt 1 uses the requested model, and after a
failed attempt whose lowercased message contains the quota marker while
the current model is the primary default, the next attempt switches to the
fallback model; otherwise the model is unchanged. -/
def modelForAttempt (env : Nat → String → AttemptOutcome) (model : String) :
    Nat → String
  | 0 => model
  | 1 => model
  | n + 2 =>
    let prev := modelForAttempt env model (n + 1)
    match env (n + 1) prev with
    | .raises _ msg =>
        if hasSubstring QUOTA_SNIPPET (lowerChars msg) && (prev == DEFAULT_MODEL)
        then FALLBACK_MODEL else prev
    | .completes _ _ => prev

/-- `payload.get(key)` on the parsed JSON payload (a dict in every
successful run; `None` is returned for a missing key). -/
def pyGet (payload : JVal) (k : String) : Option JVal :=
  match payload with
  | .jobj fields => Store.jGetFields fields k
  | _ => none

/-- Python truthiness of a JSON value. -/
noncomputable def pyTruthy : JVal → Bool
  | .jnull => false
  | .jbool b => b
  | .jnum x => decide (x ≠ 0)
  | .jstr s => !s.isEmpty
  | .jarr xs => !xs.isEmpty
  | .jobj fs => !fs.isEmpty

/-- Python `a or b` on looked-up payload values. -/
noncomputable def pyOrJ (a b : Option JVal) : Option JVal :=
  match a with
  | some v => if pyTruthy v then some v else b
  | none => b

/-- `_normalise_text` (pipeline.py lines 195-200): `""` for `None`,
`value.strip()` for strings, `str(value).strip()` otherwise. -/
noncomputable def _normalise_text (value : Option JVal) : String :=
  match value with
  | none => ""
  | some (.jstr s) => s.trim
  | some v => (Store.pyStr v).trim

/-- `f"clue-{index}"`. -/
def clueName (index : Nat) : String := "clue-" ++ String.mk (Render.rend index)

/-- One clue of `_normalise_context_clues` (pipeline.py lines 235-255). -/
noncomputable def normaliseClue (index : Nat) (item : JVal) : ContextClue :=
  match item with
  | .jobj fs =>
    let identifier :=
      let t := _normalise_text (Store.jGetFields fs "id")
      if t = "" then clueName index else t
    let path :=
      let t := _normalise_text (Store.jGetFields fs "path")
      if t = "" then none else some t
    let rationale :=
      let t := _normalise_text (Store.jGetFields fs "rationale")
      if t = "" then _normalise_text (Store.jGetFields fs "reason") else t
    ⟨identifier, path, rationale, _normalise_text (Store.jGetFields fs "content")⟩
  | v => ⟨clueName index, none, "", _normalise_text (some v)⟩

/-- `_normalise_context_clues` (pipeline.py lines 229-256): falsy input
yields no clues; a non-sequence is wrapped in a singleton list; a string is
a sequence of its characters; clues are numbered from 1. -/
noncomputable def _normalise_context_clues (raw : Option JVal) : List ContextClue :=
  match raw with
  | none => []
  | some v =>
    if !pyTruthy v then []
    else
      let items : List JVal :=
        match v with
        | .jarr xs => xs
        | .jstr s => s.data.map (fun c => .jstr (String.mk [c]))
        | other => [other]
      (List.enumFrom 1 items).map (fun p => normaliseClue p.1 p.2)

/-- The summary/clue extraction of `run_context_summary` (pipeline.py lines
457-458), the part of the stage that consumes the payload of
`_call_model_json`. -/
noncomputable def contextSummaryFields (payload : JVal) :
    String × List ContextClue :=
  (_normalise_text (pyOrJ (pyGet payload "summary") (pyGet payload "context_summary")),
   _normalise_context_clues (pyGet payload "context_clues"))

end Pipeline

-- PART2-DEFS-END

/-! ### Lemmas about the chunker -/

namespace Chunker

lemma chunkLoop_nil (t : List Char) (c o : Nat) (ho : o < c) (start : Nat)
    (hs : ¬ start < t.length) : chunkLoop t c o ho start = [] := by
  rw [chunkLoop]
  simp [hs]

lemma chunkLoop_cons (t : List Char) (c o : Nat) (ho : o < c) (start : Nat)
    (hs : start < t.length) :
    chunkLoop t c o ho start =
      ⟨(t.drop start).take (min (start + c) t.length - start), start,
          min (start + c) t.length⟩ ::
        (if min (start + c) t.length = t.length then []
         else chunkLoop t c o ho (min (start + c) t.length - o)) := by
  conv_lhs => rw [chunkLoop]
  simp [hs]

lemma chunkLoop_ne_nil (t : List Char) (c o : Nat) (ho : o < c) (start : Nat)
    (hs : start < t.length) : chunkLoop t c o ho start ≠ [] := by
  rw [chunkLoop_cons t c o ho start hs]
  simp

lemma chunkLoop_head (t : List Char) (c o : Nat) (ho : o < c) (start : Nat)
    (hs : start < t.length) :
    (chunkLoop t c o ho start).head? =
      some ⟨(t.drop start).take (min (start + c) t.length - start), start,
        min (start + c) t.length⟩ := by
  rw [chunkLoop_cons t c o ho start hs]
  rfl

lemma chunkLoop_mem (t : List Char) (c o : Nat) (ho : o < c) (start : Nat) :
    ∀ ch ∈ chunkLoop t c o ho start,
      start ≤ ch.start ∧ ch.start < ch.stop ∧ ch.stop ≤ t.length ∧
        ch.stop = min (ch.start + c) t.length ∧
        ch.text = (t.drop ch.start).take (ch.stop - ch.start) := by
  induction start using chunkLoop.induct t c o ho with
  | case1 x hx ih =>
    rw [chunkLoop_cons t c o ho x hx]
    intro ch hch
    rcases List.mem_cons.mp hch with h | h
    · subst h
      refine ⟨Nat.le_refl x, ?_, Nat.min_le_right _ _, rfl, rfl⟩
      have : x < x + c := by omega
      exact lt_min this hx
    · by_cases he : min (x + c) t.length = t.length
      · simp [he] at h
      · simp only [if_neg he] at h
        have hxc : x + c < t.length := by
          rcases Nat.lt_or_ge (x + c) t.length with h' | h'
          · exact h'
          · exact absurd (Nat.min_eq_right h') he
        have := ih he ch h
        refine ⟨?_, this.2.1, this.2.2.1, this.2.2.2.1, this.2.2.2.2⟩
        have hmin : min (x + c) t.length = x + c := Nat.min_eq_left (Nat.le_of_lt hxc)
        omega
  | case2 x hx =>
    rw [chunkLoop_nil t c o ho x hx]
    intro ch hch
    exact absurd hch (List.not_mem_nil ch)

lemma chunkLoop_getLast (t : List Char) (c o : Nat) (ho : o < c) (start : Nat) :
    ∀ h : chunkLoop t c o ho start ≠ [],
      ((chunkLoop t c o ho start).getLast h).stop = t.length := by
  induction start using chunkLoop.induct t c o ho with
  | case1 x hx ih =>
    intro h
    by_cases he : min (x + c) t.length = t.length
    · have hcons := chunkLoop_cons t c o ho x hx
      rw [if_pos he] at hcons
      rw [List.getLast_congr _ (by simp) hcons]
      simpa using he
    · have hxc : x + c < t.length := by
        rcases Nat.lt_or_ge (x + c) t.length with h' | h'
        · exact h'
        · exact absurd (Nat.min_eq_right h') he
      have hs' : min (x + c) t.length - o < t.length := by
        have : min (x + c) t.length = x + c := Nat.min_eq_left (Nat.le_of_lt hxc)
        omega
      have hne : chunkLoop t c o ho (min (x + c) t.length - o) ≠ [] :=
        chunkLoop_ne_nil t c o ho _ hs'
      have hcons := chunkLoop_cons t c o ho x hx
      rw [if_neg he] at hcons
      rw [List.getLast_congr h (by simp) hcons, List.getLast_cons hne]
      exact ih he hne
  | case2 x hx =>
    intro h
    exact absurd (chunkLoop_nil t c o ho x hx) h

lemma chunkLoop_chain (t : List Char) (c o : Nat) (ho : o < c) (start : Nat) :
    List.Chain'
      (fun a b => b.start + o = a.stop ∧ a.start ≤ b.start ∧ a.stop ≤ b.stop ∧
        b.start ≤ a.stop)
      (chunkLoop t c o ho start) := by
  induction start using chunkLoop.induct t c o ho with
  | case1 x hx ih =>
    rw [chunkLoop_cons t c o ho x hx]
    by_cases he : min (x + c) t.length = t.length
    · simp [he]
    · rw [if_neg he]
      have hxc : x + c < t.length := by
        rcases Nat.lt_or_ge (x + c) t.length with h' | h'
        · exact h'
        · exact absurd (Nat.min_eq_right h') he
      have hmin : min (x + c) t.length = x + c := Nat.min_eq_left (Nat.le_of_lt hxc)
      have hs' : min (x + c) t.length - o < t.length := by omega
      refine List.chain'_cons'.mpr ⟨?_, ih he⟩
      intro b hb
      rw [chunkLoop_head t c o ho _ hs'] at hb
      have hb' : b = ⟨(t.drop (min (x + c) t.length - o)).take
          (min (min (x + c) t.length - o + c) t.length - (min (x + c) t.length - o)),
          min (x + c) t.length - o,
          min (min (x + c) t.length - o + c) t.length⟩ := by
        injection hb with hb'
        exact hb'.symm
      subst hb'
      refine ⟨by dsimp only; omega, by dsimp only; omega, by dsimp only; omega,
        by dsimp only; omega⟩
  | case2 x hx =>
    rw [chunkLoop_nil t c o ho x hx]
    exact List.chain'_nil

lemma chunkLoop_cover (t : List Char) (c o : Nat) (ho : o < c) (start : Nat) :
    ∀ i, start ≤ i → i < t.length →
      ∃ ch ∈ chunkLoop t c o ho start, ch.start ≤ i ∧ i < ch.stop := by
  induction start using chunkLoop.induct t c o ho with
  | case1 x hx ih =>
    intro i hxi hit
    rw [chunkLoop_cons t c o ho x hx]
    by_cases hie : i < min (x + c) t.length
    · exact ⟨_, List.mem_cons_self _ _, hxi, hie⟩
    · have he : ¬ min (x + c) t.length = t.length := by
        intro h
        rw [h] at hie
        exact hie hit
      rw [if_neg he]
      have hxc : x + c < t.length := by
        rcases Nat.lt_or_ge (x + c) t.length with h' | h'
        · exact h'
        · exact absurd (Nat.min_eq_right h') he
      have hmin : min (x + c) t.length = x + c := Nat.min_eq_left (Nat.le_of_lt hxc)
      obtain ⟨ch, hch, h1, h2⟩ := ih he i (by omega) hit
      exact ⟨ch, List.mem_cons_of_mem _ hch, h1, h2⟩
  | case2 x hx =>
    intro i hxi hit
    omega

/-- C2: for every text and all parameters `chunk_size c > 0`, `0 ≤ o < c`,
`chunk_text` succeeds and returns chunks of the newline-normalised text
such that every chunk is the slice of the normalised text given by its
`(start, stop)` range and is at most `c` characters long, each consecutive
pair of chunks overlaps by exactly `o` characters (`b.start + o = a.stop`
with nested ordering, for every consecutive pair), the ranges cover
`[0, len)` without gaps, and the final chunk ends exactly at the text
length; chunking `"abcdefghij"` with `chunk_size=4, overlap=1` yields
exactly `["abcd","defg","ghij"]` with starts `[0,3,6]` and ends `[4,7,10]`,
and empty input yields an empty chunk list. -/
theorem chunk_text_spec (text : List Char) (c o : Int)
    (hc : 0 < c) (ho0 : 0 ≤ o) (hoc : o < c) :
    (∃ chunks, chunk_text text c o = .ok chunks ∧
      (∀ ch ∈ chunks, (ch.text.length : Int) ≤ c ∧
        ch.text = ((normalise_newlines text).drop ch.start).take (ch.stop - ch.start)) ∧
      List.Chain' (fun a b => (b.start : Int) + o = (a.stop : Int) ∧
        a.start ≤ b.start ∧ a.stop ≤ b.stop ∧ b.start ≤ a.stop) chunks ∧
      (∀ i < (normalise_newlines text).length,
        ∃ ch ∈ chunks, ch.start ≤ i ∧ i < ch.stop) ∧
      (∀ h : chunks ≠ [], (chunks.getLast h).stop = (normalise_newlines text).length) ∧
      (chunks = [] ↔ (normalise_newlines text).length = 0)) ∧
    chunk_text "abcdefghij".toList 4 1 =
      .ok [⟨"abcd".toList, 0, 4⟩, ⟨"defg".toList, 3, 7⟩, ⟨"ghij".toList, 6, 10⟩] ∧
    chunk_text [] c o = .ok [] := by
  have hcn : (c.toNat : Int) = c := Int.toNat_of_nonneg (le_of_lt hc)
  have hon : (o.toNat : Int) = o := Int.toNat_of_nonneg ho0
  have honc : o.toNat < c.toNat := by omega
  refine ⟨?_, ?_, ?_⟩
  · set t := normalise_newlines text with ht
    unfold chunk_text
    rw [dif_neg (by omega), dif_neg (by omega), dif_neg (by omega)]
    by_cases hlen : t.length = 0
    · refine ⟨[], by simp [← ht, hlen], ?_⟩
      simp [hlen]
    · rw [if_neg (by rw [← ht]; exact hlen)]
      refine ⟨chunkLoop t c.toNat o.toNat (by omega) 0, rfl, ?_, ?_, ?_, ?_, ?_⟩
      · intro ch hch
        obtain ⟨-, h2, h3, h4, h5⟩ := chunkLoop_mem t c.toNat o.toNat (by omega) 0 ch hch
        constructor
        · rw [h5]
          have hlt : ((t.drop ch.start).take (ch.stop - ch.start)).length ≤ c.toNat := by
            have := List.length_take_le (ch.stop - ch.start) (t.drop ch.start)
            omega
          omega
        · exact h5
      · refine (chunkLoop_chain t c.toNat o.toNat (by omega) 0).imp ?_
        intro a b hab
        refine ⟨?_, hab.2.1, hab.2.2.1, hab.2.2.2⟩
        omega
      · intro i hi
        exact chunkLoop_cover t c.toNat o.toNat (by omega) 0 i (Nat.zero_le i) hi
      · intro h
        exact chunkLoop_getLast t c.toNat o.toNat (by omega) 0 h
      · constructor
        · intro h
          exact absurd h (chunkLoop_ne_nil t c.toNat o.toNat (by omega) 0 (by omega))
        · intro h
          exact absurd h hlen
  · simp only [chunk_text]
    norm_num
    simp [normalise_newlines, replaceCRLF, chunkLoop, String.toList]
  · unfold chunk_text
    rw [dif_neg (by omega), dif_neg (by omega), dif_neg (by omega)]
    simp [normalise_newlines, replaceCRLF]

/-- Witness for C2 at `text = []`, `c = 4`, `o = 1`. -/
theorem chunk_text_spec_witness : chunk_text [] 4 1 = .ok [] :=
  (chunk_text_spec [] 4 1 (by decide) (by decide) (by decide)).2.2

end Chunker

/-! ### Lemmas and claim theorems about the staged LLM call engine -/

namespace Pipeline

open Store (JVal)

/-- C1 (evaluation at the failing input): with a client whose every attempt
raises `RuntimeError("boom")`, `max_retries = 2`, and stage
`"execution_plan"`, the engine makes exactly two attempts, logs one
attempt-failure event per attempt and exactly one `llm_call_exhausted`
event whose details carry `attempts == 2`, the stage name, and the last
model used — but the error it raises is the raw underlying `RuntimeError`
(type and message only), not a structured call-failure error carrying the
stage name, attempt count and model: the repository's own tests expect
`pipeline.LLMCallError` here, which `pipeline.py` never defines. -/
theorem exhaustion_raises_raw_underlying_error :
    _call_model_json (fun _ => none)
      (fun _ _ => .raises "RuntimeError" "boom".toList) 2 DEFAULT_MODEL
      (some "execution_plan") =
    (.error ⟨"RuntimeError", "boom".toList⟩,
      [⟨"warning", "pipeline", "LLM call attempt failed",
        [("attempt", .vn 1), ("model", .vs DEFAULT_MODEL),
         ("error_type", .vs "RuntimeError"), ("error", .vchars "boom".toList),
         ("stage", .vs "execution_plan")]⟩,
       ⟨"warning", "pipeline", "LLM call attempt failed",
        [("attempt", .vn 2), ("model", .vs DEFAULT_MODEL),
         ("error_type", .vs "RuntimeError"), ("error", .vchars "boom".toList),
         ("stage", .vs "execution_plan")]⟩,
       ⟨"error", "pipeline", "llm_call_exhausted",
        [("attempts", .vn 2), ("model", .vs DEFAULT_MODEL),
         ("error_type", .vs "RuntimeError"), ("error", .vchars "boom".toList),
         ("stage", .vs "execution_plan")]⟩]) := by
  rfl

/-- C4: a completed response whose non-empty output text is rejected by
`json.loads` does not raise: the engine logs a `model_json_parse_failed`
warning carrying a truncated excerpt of the malformed text, then the usual
completion event, and returns the empty dict payload with the response's
usage; feeding the empty payload to the context-summary stage extraction
yields the default empty fields (empty summary, no clues). -/
theorem model_json_parse_failure_recovers
    (jsonLoads : List Char → Option JVal)
    (env : Nat → String → AttemptOutcome) (req : Int) (model : String)
    (stage : Option String) (text : List Char) (usage : StageUsage)
    (henv : env 1 model = .completes text usage)
    (htext : text ≠ [])
    (hparse : jsonLoads text = none) :
    _call_model_json jsonLoads env req model stage =
      (.ok (.jobj [], usage),
        [⟨"warning", "pipeline", "model_json_parse_failed",
          [("attempt", .vn 1),
           ("excerpt", .vchars (_truncate_message text ERROR_MESSAGE_MAX_LENGTH)),
           ("error_type", .vs "JSONDecodeError")] ++ stageDetail stage⟩,
         ⟨"info", "pipeline", "model_call_completed",
          [("model", .vs model)] ++ stageDetail stage ++ [("attempts", .vn 1)]⟩]) ∧
    contextSummaryFields (.jobj []) = ("", []) := by
  constructor
  · unfold _call_model_json
    have hm : (max 1 req).toNat = ((max 1 req).toNat - 1) + 1 := by omega
    rw [hm, attemptLoop, henv]
    have htxt : text.isEmpty = false := by
      cases text with
      | nil => exact absurd rfl htext
      | cons a l => rfl
    dsimp only
    simp [htxt, hparse]
  · rfl

/-- Witness for C4 at a concrete malformed-JSON completion. -/
theorem model_json_parse_failure_recovers_witness :
    (_call_model_json (fun _ => none)
      (fun _ _ => .completes "not json".toList ⟨5, 7, 12⟩) 1 DEFAULT_MODEL
      (some "context_summary")).1 = .ok (.jobj [], ⟨5, 7, 12⟩) := by
  rw [(model_json_parse_failure_recovers (fun _ => none)
    (fun _ _ => .completes "not json".toList ⟨5, 7, 12⟩) 1 DEFAULT_MODEL
    (some "context_summary") "not json".toList ⟨5, 7, 12⟩ rfl (by decide) rfl).1]


lemma failDetailPair (attempt : Nat) (cm ty : String) (err : List Char)
    (stage : Option String) (i : Nat) (m : String)
    (hi : ("attempt", DV.vn i) ∈
      ([("attempt", DV.vn attempt), ("model", DV.vs cm), ("error_type", DV.vs ty),
        ("error", DV.vchars err)] ++ stageDetail stage))
    (hm : ("model", DV.vs m) ∈
      ([("attempt", DV.vn attempt), ("model", DV.vs cm), ("error_type", DV.vs ty),
        ("error", DV.vchars err)] ++ stageDetail stage)) :
    i = attempt ∧ m = cm := by
  cases stage <;> simp [stageDetail] at hi hm <;> exact ⟨hi, hm⟩

lemma attemptLoop_models (jsonLoads : List Char → Option JVal)
    (env : Nat → String → AttemptOutcome) (stage : Option String)
    (maxr : Nat) (model : String) :
    ∀ remaining attempt lastError attemptCount,
      1 ≤ attempt → attempt + remaining = maxr + 1 →
      ∀ e ∈ (attemptLoop jsonLoads env stage maxr remaining attempt
          (modelForAttempt env model attempt) lastError attemptCount).2,
        e.message = "LLM call attempt failed" →
        ∀ i m, ("attempt", DV.vn i) ∈ e.details →
          ("model", DV.vs m) ∈ e.details →
          m = modelForAttempt env model i := by
  intro remaining
  induction remaining with
  | zero =>
    intro attempt lastError attemptCount h1 hrem e he hmsg i m hi hm
    rw [attemptLoop.eq_def] at he
    dsimp only at he
    cases lastError with
    | none => simp at he
    | some err =>
      simp only [List.mem_singleton] at he
      subst he
      simp at hmsg
  | succ rem ih =>
    intro attempt lastError attemptCount h1 hrem e he hmsg i m hi hm
    rw [attemptLoop.eq_def] at he
    dsimp only at he
    rcases henv : env attempt (modelForAttempt env model attempt) with
      ⟨ty, msg⟩ | ⟨text, usage⟩
    · rw [henv] at he
      dsimp only at he
      have hmfa : modelForAttempt env model (attempt + 1) =
          (if hasSubstring QUOTA_SNIPPET (lowerChars msg) &&
              (modelForAttempt env model attempt == DEFAULT_MODEL)
           then FALLBACK_MODEL else modelForAttempt env model attempt) := by
        obtain ⟨n, rfl⟩ : ∃ n, attempt = n + 1 := ⟨attempt - 1, by omega⟩
        simp only [modelForAttempt, henv]
      by_cases hlt : attempt < maxr
      · rw [if_pos hlt] at he
        by_cases hq : (hasSubstring QUOTA_SNIPPET (lowerChars msg) &&
            (modelForAttempt env model attempt == DEFAULT_MODEL)) = true
        · rw [if_pos hq] at he
          dsimp only at he
          rcases List.mem_cons.mp he with he | he
          · subst he
            obtain ⟨rfl, rfl⟩ := failDetailPair attempt _ ty _ stage i m hi hm
            rfl
          rcases List.mem_cons.mp he with he | he
          · subst he
            simp at hmsg
          · rw [show FALLBACK_MODEL = modelForAttempt env model (attempt + 1) by
              rw [hmfa, if_pos hq]] at he
            exact ih (attempt + 1) (some ⟨ty, msg⟩) attempt (by omega) (by omega)
              e he hmsg i m hi hm
        · rw [if_neg hq] at he
          dsimp only at he
          rcases List.mem_cons.mp he with he | he
          · subst he
            obtain ⟨rfl, rfl⟩ := failDetailPair attempt _ ty _ stage i m hi hm
            rfl
          · rw [show modelForAttempt env model attempt =
                modelForAttempt env model (attempt + 1) by
              rw [hmfa, if_neg hq]] at he
            exact ih (attempt + 1) (some ⟨ty, msg⟩) attempt (by omega) (by omega)
              e he hmsg i m hi hm
      · rw [if_neg hlt] at he
        dsimp only at he
        have hrem0 : rem = 0 := by omega
        subst hrem0
        rcases List.mem_cons.mp he with he | he
        · subst he
          obtain ⟨rfl, rfl⟩ := failDetailPair attempt _ ty _ stage i m hi hm
          rfl
        · rw [attemptLoop.eq_def] at he
          dsimp only at he
          simp only [List.mem_singleton] at he
          subst he
          simp at hmsg
    · rw [henv] at he
      dsimp only at he
      by_cases htext : text.isEmpty
      · rw [if_pos htext] at he
        simp only [List.mem_singleton] at he
        subst he
        simp at hmsg
      · rw [if_neg htext] at he
        rcases hjs : jsonLoads text with - | payload
        · rw [hjs] at he
          dsimp only at he
          rcases List.mem_cons.mp he with he | he
          · subst he
            simp at hmsg
          · simp only [List.mem_singleton] at he
            subst he
            simp at hmsg
        · rw [hjs] at he
          dsimp only at he
          simp only [List.mem_singleton] at he
          subst he
          simp at hmsg

/-- C5: during retries, the model used for each attempt (as recorded in
that attempt's failure event) follows `modelForAttempt`, and
`modelForAttempt` switches to the designated fallback model for the next
attempt exactly when the current attempt's failure message contains the
quota-rejection marker (after lowercasing) and the current model is the
primary default model; in every other failure case, and after a completed
attempt, the model is unchanged. -/
theorem quota_fallback_model_selection (jsonLoads : List Char → Option JVal)
    (env : Nat → String → AttemptOutcome) (req : Int) (model : String)
    (stage : Option String) :
    (∀ e ∈ (_call_model_json jsonLoads env req model stage).2,
       e.message = "LLM call attempt failed" →
       ∀ i m, ("attempt", DV.vn i) ∈ e.details →
         ("model", DV.vs m) ∈ e.details →
         m = modelForAttempt env model i) ∧
    (∀ i, 1 ≤ i →
      modelForAttempt env model (i + 1) =
        match env i (modelForAttempt env model i) with
        | .raises _ msg =>
            if hasSubstring QUOTA_SNIPPET (lowerChars msg) &&
                (modelForAttempt env model i == DEFAULT_MODEL)
            then FALLBACK_MODEL else modelForAttempt env model i
        | .completes _ _ => modelForAttempt env model i) := by
  constructor
  · intro e he
    exact attemptLoop_models jsonLoads env stage (max 1 req).toNat model
      (max 1 req).toNat 1 none 0 (le_refl 1) (by omega) e he
  · intro i hi
    obtain ⟨n, rfl⟩ : ∃ n, i = n + 1 := ⟨i - 1, by omega⟩
    simp only [modelForAttempt]

/-- Witness for C5: one quota-rejected attempt on the default model makes
attempt 2 use the fallback model. -/
theorem quota_fallback_model_selection_witness :
    modelForAttempt
      (fun _ _ => .raises "RuntimeError" "You exceeded your current quota".toList)
      DEFAULT_MODEL 2 = FALLBACK_MODEL := by
  rw [(quota_fallback_model_selection (fun _ => none)
    (fun _ _ => .raises "RuntimeError" "You exceeded your current quota".toList)
    2 DEFAULT_MODEL none).2 1 (le_refl 1)]
  rfl

end Pipeline

/-! ### Lemmas and claim theorems about the vector store -/

namespace Store

lemma length_normalise (values : List ℝ) :
    (_normalise_embedding values).length = values.length := by
  unfold _normalise_embedding
  dsimp only
  split <;> simp

lemma mem_dictSet {β : Type} (m : List (String × β)) (k : String) (v : β) :
    ∀ p ∈ dictSet m k v, p = (k, v) ∨ p ∈ m := by
  induction m with
  | nil => simp [dictSet]
  | cons q rest ih =>
    intro p hp
    obtain ⟨k', v'⟩ := q
    rw [dictSet] at hp
    by_cases hk : k' = k
    · rw [if_pos hk] at hp
      rcases List.mem_cons.mp hp with h | h
      · exact Or.inl h
      · exact Or.inr (List.mem_cons_of_mem _ h)
    · rw [if_neg hk] at hp
      rcases List.mem_cons.mp hp with h | h
      · exact Or.inr (h ▸ List.mem_cons_self _ _)
      · rcases ih p h with h' | h'
        · exact Or.inl h'
        · exact Or.inr (List.mem_cons_of_mem _ h')

lemma mem_dictDelete {β : Type} (m : List (String × β)) (k : String) :
    ∀ p ∈ dictDelete m k, p ∈ m := by
  induction m with
  | nil => simp [dictDelete]
  | cons q rest ih =>
    intro p hp
    obtain ⟨k', v'⟩ := q
    rw [dictDelete] at hp
    by_cases hk : k' = k
    · rw [if_pos hk] at hp
      exact List.mem_cons_of_mem _ hp
    · rw [if_neg hk] at hp
      rcases List.mem_cons.mp hp with h | h
      · exact h ▸ List.mem_cons_self _ _
      · exact List.mem_cons_of_mem _ (ih p h)

lemma mem_foldl_dictDelete {β : Type} (ks : List String) :
    ∀ (m : List (String × β)) p, p ∈ ks.foldl (fun m k => dictDelete m k) m → p ∈ m := by
  induction ks with
  | nil => intro m p hp; exact hp
  | cons k rest ih =>
    intro m p hp
    exact mem_dictDelete m k p (ih (dictDelete m k) p hp)

lemma upsert_nil (s : VectorStore) (snippet_id : String) (content : String)
    (metadata : Metadata) :
    upsert s snippet_id [] content metadata =
      (.error (.vectorStoreError .emptyEmbedding), s) := rfl

lemma upsert_cons_none (s : VectorStore) (snippet_id : String) (a : ℝ)
    (l : List ℝ) (content : String) (metadata : Metadata)
    (hdim : s.dimension = none) :
    upsert s snippet_id (a :: l) content metadata =
      (.ok (), { s with
        dimension := some ((_normalise_embedding (a :: l)).length : Int)
        records := dictSet s.records snippet_id
          ⟨snippet_id, _normalise_embedding (a :: l), content, metadata⟩
        dirty := true }) := by
  unfold upsert
  rw [hdim]

lemma upsert_cons_mismatch (s : VectorStore) (snippet_id : String) (a : ℝ)
    (l : List ℝ) (content : String) (metadata : Metadata) (d : Int)
    (hdim : s.dimension = some d)
    (hne : ((_normalise_embedding (a :: l)).length : Int) ≠ d) :
    upsert s snippet_id (a :: l) content metadata =
      (.error (.vectorStoreError
        (.dimMismatch d (_normalise_embedding (a :: l)).length)), s) := by
  unfold upsert
  rw [hdim]
  dsimp only
  rw [if_pos hne]

lemma upsert_cons_match (s : VectorStore) (snippet_id : String) (a : ℝ)
    (l : List ℝ) (content : String) (metadata : Metadata) (d : Int)
    (hdim : s.dimension = some d)
    (heq : ((_normalise_embedding (a :: l)).length : Int) = d) :
    upsert s snippet_id (a :: l) content metadata =
      (.ok (), { s with
        records := dictSet s.records snippet_id
          ⟨snippet_id, _normalise_embedding (a :: l), content, metadata⟩
        dirty := true }) := by
  unfold upsert
  rw [hdim]
  dsimp only
  rw [if_neg (by omega)]

lemma upsert_dimInvariant (s : VectorStore) (snippet_id : String)
    (embedding : List ℝ) (content : String) (metadata : Metadata)
    (hInv : dimInvariant s) :
    dimInvariant (upsert s snippet_id embedding content metadata).2 := by
  cases embedding with
  | nil => rw [upsert_nil]; exact hInv
  | cons a l =>
    cases hdim : s.dimension with
    | none =>
      rw [upsert_cons_none s snippet_id a l content metadata hdim]
      intro p hp
      rcases mem_dictSet _ _ _ p hp with h | h
      · subst h
        rfl
      · have := hInv p h
        rw [hdim] at this
        exact absurd this (by simp)
    | some d =>
      by_cases hlen : ((_normalise_embedding (a :: l)).length : Int) = d
      · rw [upsert_cons_match s snippet_id a l content metadata d hdim hlen]
        intro p hp
        rcases mem_dictSet _ _ _ p hp with h | h
        · subst h
          simp [hlen, hdim]
        · exact hInv p h
      · rw [upsert_cons_mismatch s snippet_id a l content metadata d hdim hlen]
        exact hInv

lemma upsert_error_state (s : VectorStore) (snippet_id : String)
    (embedding : List ℝ) (content : String) (metadata : Metadata) (err : PyErr)
    (h : (upsert s snippet_id embedding content metadata).1 = .error err) :
    (upsert s snippet_id embedding content metadata).2 = s := by
  cases embedding with
  | nil => rw [upsert_nil]
  | cons a l =>
    cases hdim : s.dimension with
    | none =>
      rw [upsert_cons_none s snippet_id a l content metadata hdim] at h
      simp at h
    | some d =>
      by_cases hlen : ((_normalise_embedding (a :: l)).length : Int) = d
      · rw [upsert_cons_match s snippet_id a l content metadata d hdim hlen] at h
        simp at h
      · rw [upsert_cons_mismatch s snippet_id a l content metadata d hdim hlen]

lemma bulk_upsert_dimInvariant (items : List VectorRecord) :
    ∀ s : VectorStore, dimInvariant s → dimInvariant (bulk_upsert s items).2 := by
  induction items with
  | nil => intro s h; exact h
  | cons it rest ih =>
    intro s h
    rw [bulk_upsert]
    rcases hu : upsert s it.snippet_id it.embedding it.content it.metadata with ⟨r, s'⟩
    have hs' : dimInvariant s' := by
      have := upsert_dimInvariant s it.snippet_id it.embedding it.content it.metadata h
      rw [hu] at this
      exact this
    cases r with
    | ok u => exact ih s' hs'
    | error e => exact hs'

lemma delete_dimInvariant (s : VectorStore) (snippet_id : String)
    (hInv : dimInvariant s) : dimInvariant (delete s snippet_id) := by
  unfold delete
  split
  · intro p hp
    exact hInv p (mem_dictDelete _ _ p hp)
  · exact hInv

lemma delete_where_dimInvariant (s : VectorStore) (pred : VectorRecord → Bool)
    (hInv : dimInvariant s) : dimInvariant (delete_where s pred).2 := by
  intro p hp
  exact hInv p (mem_foldl_dictDelete _ _ p hp)

lemma query_state (s : VectorStore) (embedding : List ℝ) (top_k : Int) :
    (query s embedding top_k).2 = s := by
  unfold query
  cases s.records with
  | nil => rfl
  | cons a l =>
    cases s.dimension with
    | none => rfl
    | some d =>
      dsimp only
      split <;> rfl

lemma query_text_state (s : VectorStore) (text : String) (top_k : Int) :
    (query_text s text top_k).2 = s := by
  unfold query_text
  split
  · rfl
  · exact query_state s _ top_k

lemma save_state_clean (s : VectorStore) (h : s.dirty = false) :
    save s = (none, s) := by
  unfold save
  rw [h]
  rfl

/-- C3: the store's dimensionality invariant — every stored record's
embedding has the store's established dimension — is preserved by every
store operation (`upsert`, `add_text`, `bulk_upsert`, `delete`,
`delete_where`, `delete_by_path`, `query`, `query_text`, `save`); `upsert`
with an embedding whose length differs from the established dimension
raises `VectorStoreError` and leaves the store (dimension and record set)
unchanged, and `upsert` with an empty embedding raises
`VectorStoreError`. -/
theorem store_dimension_invariant (s : VectorStore) (hInv : dimInvariant s) :
    (∀ id e c md, dimInvariant (upsert s id e c md).2 ∧
      (∀ err, (upsert s id e c md).1 = .error err → (upsert s id e c md).2 = s)) ∧
    (∀ id c md, (upsert s id [] c md).1 = .error (.vectorStoreError .emptyEmbedding)) ∧
    (∀ id e c md d, s.dimension = some d → ((e.length : Int)) ≠ d → e ≠ [] →
      (upsert s id e c md).1 = .error (.vectorStoreError (.dimMismatch d e.length)) ∧
      (upsert s id e c md).2 = s) ∧
    (∀ id t md, dimInvariant (add_text s id t md).2) ∧
    (∀ items, dimInvariant (bulk_upsert s items).2) ∧
    (∀ id, dimInvariant (delete s id)) ∧
    (∀ pred, dimInvariant (delete_where s pred).2) ∧
    (∀ path, dimInvariant (delete_by_path s path).2) ∧
    (∀ e k, dimInvariant (query s e k).2) ∧
    (∀ t k, dimInvariant (query_text s t k).2) ∧
    dimInvariant (save s).2 := by
  refine ⟨fun id e c md => ⟨upsert_dimInvariant s id e c md hInv,
      fun err => upsert_error_state s id e c md err⟩,
    fun id c md => rfl,
    ?_,
    fun id t md => upsert_dimInvariant s id _ t md hInv,
    fun items => bulk_upsert_dimInvariant items s hInv,
    fun id => delete_dimInvariant s id hInv,
    fun pred => delete_where_dimInvariant s pred hInv,
    fun path => delete_where_dimInvariant s _ hInv,
    fun e k => by rw [query_state]; exact hInv,
    fun t k => by rw [query_text_state]; exact hInv,
    ?_⟩
  · intro id e c md d hd hlen hne
    cases e with
    | nil => exact absurd rfl hne
    | cons a l =>
      have hnl : ((_normalise_embedding (a :: l)).length : Int) ≠ d := by
        rw [length_normalise]
        exact hlen
      rw [upsert_cons_mismatch s id a l c md d hd hnl]
      exact ⟨by rw [length_normalise], rfl⟩
  · unfold save
    split
    · exact hInv
    · exact hInv

/-- Witness for C3: a one-record store with dimension 1 satisfies the
invariant; upserting a length-2 embedding raises the dimensionality
mismatch error. -/
theorem store_dimension_invariant_witness :
    (upsert ⟨256, fun _ _ => [], [("a", ⟨"a", [1], "", []⟩)], some 1, true⟩
        "b" [1, 2] "" []).1 =
      .error (.vectorStoreError (.dimMismatch 1 2)) := by
  have hInv : dimInvariant
      ⟨256, fun _ _ => [], [("a", ⟨"a", [1], "", []⟩)], some 1, true⟩ := by
    intro p hp
    simp only [List.mem_singleton] at hp
    subst hp
    rfl
  exact ((store_dimension_invariant _ hInv).2.2.1 "b" [1, 2] "" [] 1 rfl
    (by decide) (by simp)).1

/-- C9: `query` and `query_text` never modify the vector store — the whole
state (record set, established dimension, dirty flag) is returned exactly
as it was — and on a store that is not dirty `save` performs no write and
leaves the state unchanged. -/
theorem query_is_readonly (s : VectorStore) :
    (∀ e k, (query s e k).2 = s) ∧
    (∀ t k, (query_text s t k).2 = s) ∧
    (s.dirty = false → save s = (none, s)) :=
  ⟨fun e k => query_state s e k,
   fun t k => query_text_state s t k,
   fun h => save_state_clean s h⟩

/-- Witness for C9 on a concrete clean store. -/
theorem query_is_readonly_witness :
    (query (initStore 256 (fun _ _ => [])) [1] 5).2 =
      initStore 256 (fun _ _ => []) ∧
    save (initStore 256 (fun _ _ => [])) = (none, initStore 256 (fun _ _ => [])) :=
  ⟨(query_is_readonly (initStore 256 (fun _ _ => []))).1 [1] 5,
   (query_is_readonly (initStore 256 (fun _ _ => []))).2.2 rfl⟩

lemma sortDesc_length (l : List QueryResult) : (sortDesc l).length = l.length :=
  (List.perm_insertionSort _ l).length_eq

lemma sortDesc_pairwise (l : List QueryResult) :
    List.Pairwise (fun a b => b.score ≤ a.score) (sortDesc l) := by
  haveI : IsTotal QueryResult (fun a b => b.score ≤ a.score) :=
    ⟨fun a b => le_total b.score a.score⟩
  haveI : IsTrans QueryResult (fun a b => b.score ≤ a.score) :=
    ⟨fun a b c h1 h2 => le_trans h2 h1⟩
  exact List.sorted_insertionSort _ l

lemma query_ok (s : VectorStore) (e : List ℝ) (k : Int) (d : Int)
    (hd : s.dimension = some d) (hlen : (e.length : Int) = d)
    (hrec : s.records ≠ []) :
    query s e k = (.ok (_query_python s (_normalise_embedding e) k), s) := by
  unfold query
  cases hr : s.records with
  | nil => exact absurd hr hrec
  | cons a l =>
    rw [hd]
    dsimp only
    rw [if_neg (by rw [length_normalise]; omega)]

/-- C10: for every non-negative `top_k` and every query embedding whose
length matches the store's established dimension, `query` (which always
takes the brute-force `_query_python` path) succeeds and returns exactly
`min top_k (number of stored records)` results sorted in non-increasing
score order; `top_k = 0` yields the empty result list. -/
theorem query_topk_sorted (s : VectorStore) (e : List ℝ) (k : Int) (d : Int)
    (hd : s.dimension = some d) (hlen : (e.length : Int) = d) (hk : 0 ≤ k) :
    ∃ res, (query s e k).1 = .ok res ∧
      res.length = min k.toNat s.records.length ∧
      List.Pairwise (fun a b => b.score ≤ a.score) res ∧
      (k = 0 → res = []) := by
  cases hr : s.records with
  | nil =>
    refine ⟨[], ?_, by simp, List.Pairwise.nil, fun _ => rfl⟩
    unfold query
    rw [hr]
  | cons a l =>
    rw [query_ok s e k d hd hlen (by rw [hr]; simp)]
    refine ⟨_, rfl, ?_, ?_, ?_⟩
    · unfold _query_python pySlice
      rw [if_neg (by omega)]
      rw [List.length_take, sortDesc_length]
      simp [dictVals, hr]
    · unfold _query_python pySlice
      rw [if_neg (by omega)]
      exact List.Pairwise.sublist (List.take_sublist _ _) (sortDesc_pairwise _)
    · intro hk0
      subst hk0
      unfold _query_python pySlice
      rw [if_neg (by omega)]
      simp

/-- Witness for C10: a two-record store with dimension 2, `top_k = 1`
returns exactly one result. -/
theorem query_topk_sorted_witness :
    (⟨256, fun _ _ => [], [("a", ⟨"a", [1, 0], "", []⟩), ("b", ⟨"b", [0, 1], "", []⟩)],
        some 2, true⟩ : VectorStore).dimension = some 2 ∧
    (match (query ⟨256, fun _ _ => [],
        [("a", ⟨"a", [1, 0], "", []⟩), ("b", ⟨"b", [0, 1], "", []⟩)], some 2, true⟩
        [1, 0] 1).1 with
      | .ok res => res.length = 1
      | .error _ => False) := by
  refine ⟨rfl, ?_⟩
  obtain ⟨res, h1, h2, h3, h4⟩ := query_topk_sorted
    ⟨256, fun _ _ => [], [("a", ⟨"a", [1, 0], "", []⟩), ("b", ⟨"b", [0, 1], "", []⟩)],
      some 2, true⟩ [1, 0] 1 2 rfl (by simp) (by decide)
  rw [h1]
  dsimp only
  rw [h2]
  rfl

end Store

namespace Store

/-- A payload whose version field is JSON `true` is accepted: Python's
`bool` is an `int` subclass, so `True != STORE_VERSION` is false and
`load` proceeds to load the (empty) record list. -/
lemma load_version_bool_true_accepted (s : VectorStore) :
    load (.content (.jobj [("version", .jbool true)])) s =
      (.ok (), { s with
                   dimension := some s.default_dim
                   records := []
                   dirty := false }) := by
  unfold load
  dsimp only
  have hred : (jGetFields [("version", JVal.jbool true)] "version").getD (.jnum 0) =
      JVal.jbool true := rfl
  rw [hred]
  have hone : pyEqInt (JVal.jbool true) 1 := by simp [pyEqInt]
  rw [if_neg (not_not_intro hone)]
  have hdim : (jGetFields [("version", JVal.jbool true)] "dimension").getD
      (.jnum (s.default_dim : ℝ)) = JVal.jnum (s.default_dim : ℝ) := rfl
  rw [hdim]
  have hpi : pyInt (JVal.jnum (s.default_dim : ℝ)) = .ok s.default_dim := by
    by_cases h : (0:ℝ) ≤ (s.default_dim : ℝ) <;>
      simp [pyInt, pyIntOfReal, h]
  rw [hpi]
  rfl

/-- C7 (amended): `load` raises `VectorStoreError` reporting expected
versus actual version whenever the stored payload's version is unequal
(in Python's sense, under which a boolean `true` equals `1`) to the
expected store version, leaving the store unchanged; a missing backing
file leaves the store untouched (so a store that was empty stays empty)
without error; text rejected by the JSON parser surfaces an error to the
caller — it is not silently recovered — but that error is the JSON
decoder's `JSONDecodeError`, not the `VectorStoreError` type. -/
theorem load_corruption_handling :
    (∀ (s : VectorStore) (fields : List (String × JVal)),
       ¬ pyEqInt ((jGetFields fields "version").getD (.jnum 0)) 1 →
       load (.content (.jobj fields)) s =
         (.error (.vectorStoreError
           (.versionMismatch ((jGetFields fields "version").getD (.jnum 0)) 1)), s)) ∧
    (∀ s, load .missing s = (.ok (), s)) ∧
    (∀ s, load .invalid s = (.error .jsonDecodeError, s)) ∧
    PyErr.jsonDecodeError.isVectorStoreError = false := by
  refine ⟨?_, fun s => rfl, fun s => rfl, rfl⟩
  intro s fields hv
  unfold load
  dsimp only
  rw [if_pos hv]

/-- C7 counterexample to the claim as stated: on a backing file whose text
is rejected by `json.loads`, `load` raises the JSON decoder's error, which
is not of the `VectorStoreError` type. -/
theorem load_invalid_json_not_vectorStoreError :
    (load .invalid (initStore 256 (fun _ _ => []))).1 = .error .jsonDecodeError ∧
    PyErr.jsonDecodeError.isVectorStoreError = false := ⟨rfl, rfl⟩

/-- Witness for C7 at a concrete version-2 payload. -/
theorem load_corruption_handling_witness :
    (load (.content (.jobj [("version", .jnum 2)]))
        (initStore 256 (fun _ _ => []))).1 =
      .error (.vectorStoreError (.versionMismatch (.jnum 2) 1)) := by
  have hne : ¬ pyEqInt
      ((jGetFields [("version", JVal.jnum 2)] "version").getD (.jnum 0)) 1 := by
    have hred : (jGetFields [("version", JVal.jnum 2)] "version").getD (.jnum 0) =
        JVal.jnum 2 := rfl
    rw [hred]
    norm_num [pyEqInt]
  have h := (load_corruption_handling).1 (initStore 256 (fun _ _ => []))
    [("version", JVal.jnum 2)] hne
  exact congrArg Prod.fst h

end Store

namespace Store

lemma sumsq_nonneg (l : List ℝ) : 0 ≤ (l.map (fun v => v * v)).sum := by
  apply List.sum_nonneg
  intro x hx
  obtain ⟨v, hv, rfl⟩ := List.mem_map.mp hx
  exact mul_self_nonneg v

lemma zipWith_mul_map_self (f : ℝ → ℝ) (e : List ℝ) :
    List.zipWith (· * ·) (e.map f) (e.map f) = e.map (fun v => f v * f v) := by
  induction e with
  | nil => rfl
  | cons a l ih => simp [ih]

lemma normalise_of_ne_zero (e : List ℝ) (hS : (e.map (fun v => v * v)).sum ≠ 0) :
    _normalise_embedding e =
      e.map (fun v => v / Real.sqrt ((e.map (fun v => v * v)).sum)) := by
  unfold _normalise_embedding
  dsimp only
  rw [if_neg]
  intro h
  rw [Real.sqrt_eq_zero'] at h
  exact hS (le_antisymm h (sumsq_nonneg e))

lemma dot_normalise_self (e : List ℝ) (hS : (e.map (fun v => v * v)).sum ≠ 0) :
    dotZip (_normalise_embedding e) (_normalise_embedding e) = 1 := by
  set S := (e.map (fun v => v * v)).sum with hSdef
  have hS0 : 0 ≤ S := sumsq_nonneg e
  have hsq : Real.sqrt S * Real.sqrt S = S := Real.mul_self_sqrt hS0
  rw [dotZip, normalise_of_ne_zero e hS, zipWith_mul_map_self]
  have hmap : (e.map (fun v => v / Real.sqrt S * (v / Real.sqrt S))) =
      e.map (fun v => v * v * (Real.sqrt S * Real.sqrt S)⁻¹) := by
    apply List.map_congr_left
    intro v _
    rw [div_mul_div_comm, div_eq_mul_inv]
  rw [hmap, List.sum_map_mul_right, ← hSdef, hsq, mul_inv_cancel₀ hS]

lemma query_fresh_upsert (dd : Int) (fn : String → Int → List ℝ)
    (id : String) (a : ℝ) (l : List ℝ) (c : String) (md : Metadata) :
    (query (upsert (initStore dd fn) id (a :: l) c md).2 (a :: l) 1).1 =
      .ok [⟨id, dotZip (_normalise_embedding (a :: l))
        (_normalise_embedding (a :: l)), c, md⟩] := by
  rw [upsert_cons_none (initStore dd fn) id a l c md rfl]
  rw [query_ok _ (a :: l) 1 ((_normalise_embedding (a :: l)).length : Int)
    rfl (by rw [length_normalise]) (by simp [initStore, dictSet])]
  unfold _query_python pySlice
  rw [if_neg (by omega)]
  simp only [initStore, dictSet, dictVals, List.map_cons, List.map_nil]
  rfl

/-- C6 (amended): for every snippet id and every embedding `e` whose sum of
squares is nonzero (`e` is not the zero vector), `upsert(id, e)` on a
freshly initialised store followed by `query(e, top_k = 1)` returns exactly
one result, whose `snippet_id` is `id` and whose score is exactly `1`
(hence approximately 1.0): the cosine similarity of the normalised vector
with itself. -/
theorem upsert_query_roundtrip (dd : Int) (fn : String → Int → List ℝ)
    (id : String) (e : List ℝ) (c : String) (md : Metadata)
    (hS : (e.map (fun v => v * v)).sum ≠ 0) :
    (upsert (initStore dd fn) id e c md).1 = .ok () ∧
    (query (upsert (initStore dd fn) id e c md).2 e 1).1 =
      .ok [⟨id, 1, c, md⟩] := by
  cases e with
  | nil => simp at hS
  | cons a l =>
    constructor
    · rw [upsert_cons_none (initStore dd fn) id a l c md rfl]
    · rw [query_fresh_upsert dd fn id a l c md, dot_normalise_self (a :: l) hS]

/-- C6 counterexample to the claim as stated: upserting the zero embedding
`[0.0]` into a fresh store succeeds (the zero vector normalises to itself),
but `query([0.0], top_k = 1)` then returns that id with score `0`, which is
not approximately 1.0. -/
theorem upsert_query_roundtrip_counterexample :
    (upsert (initStore 256 (fun _ _ => [])) "a" [(0:ℝ)] "" []).1 = .ok () ∧
    (query (upsert (initStore 256 (fun _ _ => [])) "a" [(0:ℝ)] "" []).2
        [(0:ℝ)] 1).1 = .ok [⟨"a", 0, "", []⟩] ∧
    ¬ |(0:ℝ) - 1| < 1/2 := by
  have hN : _normalise_embedding [(0:ℝ)] = [0] := by
    unfold _normalise_embedding
    norm_num
  have hdot : dotZip (_normalise_embedding [(0:ℝ)])
      (_normalise_embedding [(0:ℝ)]) = 0 := by
    rw [hN]
    simp [dotZip]
  refine ⟨?_, ?_, by norm_num⟩
  · rw [upsert_cons_none (initStore 256 (fun _ _ => [])) "a" 0 [] "" [] rfl]
  · rw [query_fresh_upsert 256 (fun _ _ => []) "a" 0 [] "" [], hdot]

/-- Witness for C6 at `e = [1]`. -/
theorem upsert_query_roundtrip_witness :
    (query (upsert (initStore 256 (fun _ _ => [])) "a" [(1:ℝ)] "c" []).2
        [(1:ℝ)] 1).1 = .ok [⟨"a", 1, "c", []⟩] :=
  (upsert_query_roundtrip 256 (fun _ _ => []) "a" [(1:ℝ)] "c" []
    (by norm_num)).2

end Store

/-! ### Injectivity of the decimal renderings -/

namespace Render

lemma valChars_append (xs ys : List Char) (a : Nat) :
    (xs ++ ys).foldl (fun a c => 10 * a + (c.toNat - 48)) a =
      ys.foldl (fun a c => 10 * a + (c.toNat - 48))
        (xs.foldl (fun a c => 10 * a + (c.toNat - 48)) a) :=
  List.foldl_append _ _ _ _

lemma digit_char_toNat (n : Nat) (h : n < 10) : (Char.ofNat (48 + n)).toNat = 48 + n := by
  interval_cases n <;> decide

lemma val_digitsAux (fuel : Nat) :
    ∀ n, n < fuel → valChars (digitsAux fuel n) = n := by
  induction fuel with
  | zero => intro n hn; omega
  | succ fuel ih =>
    intro n hn
    rw [digitsAux]
    by_cases h10 : n < 10
    · rw [if_pos h10]
      unfold valChars
      simp only [List.foldl]
      rw [digit_char_toNat n h10]
      omega
    · rw [if_neg h10]
      unfold valChars
      rw [valChars_append]
      have hdiv : n / 10 < fuel := by omega
      have hih := ih (n / 10) hdiv
      unfold valChars at hih
      rw [hih]
      simp only [List.foldl]
      rw [digit_char_toNat (n % 10) (by omega)]
      omega

lemma val_rend (n : Nat) : valChars (rend n) = n := by
  unfold rend
  exact val_digitsAux (n + 1) n (by omega)

lemma val_replicate_zero (k : Nat) (cs : List Char) :
    valChars (List.replicate k '0' ++ cs) = valChars cs := by
  induction k with
  | zero => rfl
  | succ k ih =>
    unfold valChars at ih ⊢
    rw [List.replicate_succ, List.cons_append, List.foldl_cons]
    simpa using ih

lemma val_pad4 (n : Nat) : valChars (pad4 n) = n := by
  unfold pad4
  rw [val_replicate_zero, val_rend]

lemma pad4_inj (a b : Nat) (h : pad4 a = pad4 b) : a = b := by
  have := congrArg valChars h
  rwa [val_pad4, val_pad4] at this

end Render

namespace Indexing

lemma build_snippet_id_inj (relative : List String) (i j : Nat)
    (h : _build_snippet_id relative i = _build_snippet_id relative j) : i = j := by
  unfold _build_snippet_id at h
  have hdata := congrArg String.data h
  simp only [String.data_append] at hdata
  have hpad : Render.pad4 (i + 1) = Render.pad4 (j + 1) := by
    first
      | exact List.append_cancel_left (List.append_cancel_left hdata)
      | exact List.append_cancel_left hdata
  have := Render.pad4_inj (i + 1) (j + 1) hpad
  omega

end Indexing

/-! ### Dictionary lemmas for the idempotence claim -/

namespace Store

lemma mem_dictSet_self {β : Type} (m : List (String × β)) (k : String) (v : β) :
    (k, v) ∈ dictSet m k v := by
  induction m with
  | nil => simp [dictSet]
  | cons q rest ih =>
    obtain ⟨k', v'⟩ := q
    rw [dictSet]
    by_cases hk : k' = k
    · rw [if_pos hk]
      exact List.mem_cons_self _ _
    · rw [if_neg hk]
      exact List.mem_cons_of_mem _ ih

lemma mem_dictSet_of_ne {β : Type} (m : List (String × β)) (k : String) (v : β)
    (q : String × β) (hq : q ∈ m) (hne : q.1 ≠ k) : q ∈ dictSet m k v := by
  induction m with
  | nil => simp at hq
  | cons p rest ih =>
    obtain ⟨k', v'⟩ := p
    rw [dictSet]
    rcases List.mem_cons.mp hq with h | h
    · subst h
      rw [if_neg (by simpa using hne)]
      exact List.mem_cons_self _ _
    · by_cases hk : k' = k
      · rw [if_pos hk]
        exact List.mem_cons_of_mem _ h
      · rw [if_neg hk]
        exact List.mem_cons_of_mem _ (ih h)

lemma keys_dictSet_sub {β : Type} (m : List (String × β)) (k : String) (v : β) :
    ∀ a ∈ (dictSet m k v).map Prod.fst, a = k ∨ a ∈ m.map Prod.fst := by
  intro a ha
  obtain ⟨q, hq, rfl⟩ := List.mem_map.mp ha
  rcases mem_dictSet _ _ _ q hq with h | h
  · subst h
    exact Or.inl rfl
  · exact Or.inr (List.mem_map_of_mem _ h)

lemma nodup_keys_dictSet {β : Type} (m : List (String × β)) (k : String) (v : β)
    (h : (m.map Prod.fst).Nodup) : ((dictSet m k v).map Prod.fst).Nodup := by
  induction m with
  | nil => simp [dictSet]
  | cons q rest ih =>
    obtain ⟨k', v'⟩ := q
    simp only [List.map_cons, List.nodup_cons] at h
    rw [dictSet]
    by_cases hk : k' = k
    · rw [if_pos hk]
      simp only [List.map_cons, List.nodup_cons]
      exact ⟨hk ▸ h.1, h.2⟩
    · rw [if_neg hk]
      simp only [List.map_cons, List.nodup_cons]
      refine ⟨?_, ih h.2⟩
      intro hmem
      rcases keys_dictSet_sub rest k v k' hmem with h' | h'
      · exact hk h'
      · exact h.1 h'

lemma dictSet_length_fresh {β : Type} (m : List (String × β)) (k : String) (v : β)
    (h : ∀ q ∈ m, q.1 ≠ k) : (dictSet m k v).length = m.length + 1 := by
  induction m with
  | nil => rfl
  | cons q rest ih =>
    obtain ⟨k', v'⟩ := q
    rw [dictSet]
    rw [if_neg (h (k', v') (List.mem_cons_self _ _))]
    simp only [List.length_cons]
    rw [ih (fun q hq => h q (List.mem_cons_of_mem _ hq))]

lemma dictSet_filter_count {β : Type} (P : String × β → Bool)
    (m : List (String × β))
    (k : String) (v : β) (hold : ∀ q ∈ m, q.1 = k → P q = false)
    (hnew : P (k, v) = true) :
    ((dictSet m k v).filter P).length = (m.filter P).length + 1 := by
  induction m with
  | nil => simp [dictSet, List.filter, hnew]
  | cons q rest ih =>
    obtain ⟨k', v'⟩ := q
    rw [dictSet]
    by_cases hk : k' = k
    · rw [if_pos hk]
      have hv' : P (k', v') = false := hold (k', v') (List.mem_cons_self _ _) hk
      simp [List.filter_cons, hnew, hv']
    · rw [if_neg hk]
      have hrest := ih (fun q hq hqk => hold q (List.mem_cons_of_mem _ hq) hqk)
      by_cases hv' : P (k', v') = true <;>
        simp [List.filter_cons, hv', hrest] <;> omega

lemma key_unique {β : Type} (m : List (String × β))
    (hkeys : (m.map Prod.fst).Nodup) :
    ∀ q ∈ m, ∀ r ∈ m, q.1 = r.1 → q = r := by
  induction m with
  | nil => simp
  | cons p rest ih =>
    simp only [List.map_cons, List.nodup_cons] at hkeys
    intro q hq r hr hqr
    rcases List.mem_cons.mp hq with h | h <;> rcases List.mem_cons.mp hr with h' | h'
    · rw [h, h']
    · subst h
      exact absurd (hqr ▸ List.mem_map_of_mem Prod.fst h') hkeys.1
    · subst h'
      exact absurd (hqr ▸ List.mem_map_of_mem Prod.fst h) hkeys.1
    · exact ih hkeys.2 q h r h' hqr

lemma dictDelete_eq_filter {β : Type} (m : List (String × β)) (k : String)
    (hkeys : (m.map Prod.fst).Nodup) :
    dictDelete m k = m.filter (fun q => !(q.1 == k)) := by
  induction m with
  | nil => rfl
  | cons p rest ih =>
    obtain ⟨k', v'⟩ := p
    simp only [List.map_cons, List.nodup_cons] at hkeys
    rw [dictDelete]
    by_cases hk : k' = k
    · rw [if_pos hk]
      subst hk
      have hall : ∀ q ∈ rest, (!(q.1 == k')) = true := by
        intro q hq
        simp only [Bool.not_eq_true', beq_eq_false_iff_ne, ne_eq]
        intro hqk
        exact hkeys.1 (hqk ▸ List.mem_map_of_mem Prod.fst hq)
      rw [List.filter_cons]
      simp [List.filter_eq_self.mpr hall]
    · rw [if_neg hk, List.filter_cons]
      have hcond : (!(k' == k)) = true := by simp [hk]
      rw [hcond, if_pos rfl, ih hkeys.2]

lemma nodup_keys_filter {β : Type} (m : List (String × β)) (p : String × β → Bool)
    (hkeys : (m.map Prod.fst).Nodup) : ((m.filter p).map Prod.fst).Nodup :=
  List.Nodup.sublist (List.Sublist.map Prod.fst (List.filter_sublist m)) hkeys

lemma foldl_dictDelete_eq_filter {β : Type} (ks : List String) :
    ∀ (m : List (String × β)), (m.map Prod.fst).Nodup →
      ks.foldl (fun acc k => dictDelete acc k) m =
        m.filter (fun q => !(ks.contains q.1)) := by
  induction ks with
  | nil =>
    intro m _
    simp
  | cons k rest ih =>
    intro m hkeys
    rw [List.foldl_cons, dictDelete_eq_filter m k hkeys,
      ih _ (nodup_keys_filter m _ hkeys), List.filter_filter]
    apply List.filter_congr
    intro q _
    simp only [List.contains_cons, Bool.not_or]
    rw [Bool.and_comm]

lemma delete_where_records (s : VectorStore) (pred : VectorRecord → Bool)
    (hkeys : (s.records.map Prod.fst).Nodup) :
    (delete_where s pred).2.records = s.records.filter (fun q => !(pred q.2)) := by
  unfold delete_where
  dsimp only
  rw [foldl_dictDelete_eq_filter _ _ hkeys]
  apply List.filter_congr
  intro q hq
  congr 1
  by_cases hp : pred q.2 = true
  · rw [hp]
    rw [List.contains_iff_exists_mem_beq]
    refine ⟨q.1, List.mem_map_of_mem Prod.fst (List.mem_filter.mpr ⟨hq, hp⟩), ?_⟩
    simp
  · simp only [Bool.not_eq_true] at hp
    rw [hp]
    rw [Bool.eq_false_iff]
    intro hcon
    rw [List.contains_iff_exists_mem_beq] at hcon
    obtain ⟨a, ha, hbeq⟩ := hcon
    obtain ⟨r, hr, rfl⟩ := List.mem_map.mp ha
    have hrm := List.mem_filter.mp hr
    have : q = r := key_unique s.records hkeys q hq r hrm.1 (by simpa using hbeq)
    subst this
    rw [hrm.2] at hp
    simp at hp

lemma delete_where_state (s : VectorStore) (pred : VectorRecord → Bool) :
    (delete_where s pred).2.embedding_fn = s.embedding_fn ∧
    (delete_where s pred).2.default_dim = s.default_dim ∧
    (delete_where s pred).2.dimension = s.dimension := ⟨rfl, rfl, rfl⟩

end Store

namespace Store

lemma add_text_ok (u : VectorStore) (sid t : String) (md : Metadata)
    (v : VectorStore) (h : add_text u sid t md = (.ok (), v)) :
    ∃ a l, u.embedding_fn t (dimOrDefault u) = a :: l ∧
      v.records = dictSet u.records sid
        ⟨sid, _normalise_embedding (a :: l), t, md⟩ ∧
      v.dimension = some (((_normalise_embedding (a :: l)).length : Int)) ∧
      v.embedding_fn = u.embedding_fn ∧ v.default_dim = u.default_dim ∧
      (∀ d, u.dimension = some d → v.dimension = some d) ∧
      v.dirty = true := by
  unfold add_text at h
  dsimp only at h
  rcases hemb : u.embedding_fn t (dimOrDefault u) with - | ⟨a, l⟩
  · rw [hemb, upsert_nil] at h
    simp at h
  · rw [hemb] at h
    refine ⟨a, l, rfl, ?_⟩
    cases hdim : u.dimension with
    | none =>
      rw [upsert_cons_none u sid a l t md hdim] at h
      obtain ⟨-, rfl⟩ := Prod.mk.injEq .. ▸ h
      refine ⟨rfl, rfl, rfl, rfl, ?_, rfl⟩
      intro d hd
      exact absurd hd (by simp)
    | some d =>
      by_cases hlen : ((_normalise_embedding (a :: l)).length : Int) = d
      · rw [upsert_cons_match u sid a l t md d hdim hlen] at h
        obtain ⟨-, rfl⟩ := Prod.mk.injEq .. ▸ h
        refine ⟨rfl, ?_, rfl, rfl, ?_, rfl⟩
        · show u.dimension = _
          rw [hdim, hlen]
        · intro d' hd'
          exact hdim.trans hd'
      · rw [upsert_cons_mismatch u sid a l t md d hdim hlen] at h
        simp at h

lemma add_text_succeeds (u : VectorStore) (sid t : String) (md : Metadata)
    (D : Int) (hdim : u.dimension = some D) (hD : 0 < D)
    (hfn : ((u.embedding_fn t D).length : Int) = D) :
    add_text u sid t md = (.ok (), { u with
      records := dictSet u.records sid
        ⟨sid, _normalise_embedding (u.embedding_fn t D), t, md⟩
      dirty := true }) := by
  have hdod : dimOrDefault u = D := by
    unfold dimOrDefault
    rw [hdim]
    dsimp only
    rw [if_neg (by omega)]
  unfold add_text
  dsimp only
  rw [hdod]
  rcases hemb : u.embedding_fn t D with - | ⟨a, l⟩
  · rw [hemb] at hfn
    simp at hfn
    omega
  · rw [hemb] at hfn
    have hlen : ((_normalise_embedding (a :: l)).length : Int) = D := by
      rw [length_normalise]
      exact hfn
    rw [upsert_cons_match u sid a l t md D hdim hlen]

end Store

/-! ### The idempotence of `index_file` -/

namespace Indexing

open Store

lemma indexChunks_ok_spec (relative : List String) (label : String) (total : Nat) :
    ∀ (chunks : List Chunker.TextChunk) (j : Nat) (u u' : VectorStore),
      indexChunks relative label total chunks j u = (.ok (), u') →
      (u.records.map Prod.fst).Nodup →
      (∀ i, j ≤ i → i < j + chunks.length → ∀ q ∈ u.records,
        q.1 = _build_snippet_id relative i →
        (decide (jGetFields q.2.metadata "path" =
          some (.jstr (as_posix relative)))) = false) →
      (u'.records.map Prod.fst).Nodup ∧
      u'.embedding_fn = u.embedding_fn ∧
      u'.default_dim = u.default_dim ∧
      (∀ d, u.dimension = some d → u'.dimension = some d) ∧
      (chunks ≠ [] → ∃ D, u'.dimension = some D ∧ 0 < D) ∧
      (u'.records.filter (fun q => decide (jGetFields q.2.metadata "path" =
          some (.jstr (as_posix relative))))).length =
        (u.records.filter (fun q => decide (jGetFields q.2.metadata "path" =
          some (.jstr (as_posix relative))))).length + chunks.length ∧
      (∀ i, j ≤ i → i < j + chunks.length →
        ∃ q ∈ u'.records, q.1 = _build_snippet_id relative i ∧
          (decide (jGetFields q.2.metadata "path" =
            some (.jstr (as_posix relative)))) = true) ∧
      (∀ q ∈ u.records, (∀ i, j ≤ i → i < j + chunks.length →
          q.1 ≠ _build_snippet_id relative i) → q ∈ u'.records) := by
  intro chunks
  induction chunks with
  | nil =>
    intro j u u' h hkeys hfut
    rw [indexChunks] at h
    obtain ⟨-, rfl⟩ := Prod.mk.injEq .. ▸ h
    refine ⟨hkeys, rfl, rfl, fun d hd => hd, fun hne => absurd rfl hne, by simp,
      fun i hi1 hi2 => absurd hi2 (by simp; omega), fun q hq _ => hq⟩
  | cons chunk rest ih =>
    intro j u u' h hkeys hfut
    rw [indexChunks] at h
    rcases hadd : add_text u (_build_snippet_id relative j)
        (String.mk chunk.text)
        [("path", .jstr (as_posix relative)), ("source", .jstr label),
         ("chunk_index", .jnum j), ("chunk_count", .jnum total),
         ("char_start", .jnum chunk.start), ("char_end", .jnum chunk.stop)]
      with ⟨r, v⟩
    rw [hadd] at h
    cases r with
    | error e => simp at h
    | ok unitval =>
      obtain ⟨a, l, hemb, hrecs, hvdim, hvfn, hvdd, hdimpres, hdirty⟩ :=
        add_text_ok u _ _ _ v hadd
      have hkeysv : (v.records.map Prod.fst).Nodup := by
        rw [hrecs]
        exact nodup_keys_dictSet _ _ _ hkeys
      have hfutv : ∀ i, j + 1 ≤ i → i < (j + 1) + rest.length → ∀ q ∈ v.records,
          q.1 = _build_snippet_id relative i →
          (decide (jGetFields q.2.metadata "path" =
            some (.jstr (as_posix relative)))) = false := by
        intro i hi1 hi2 q hq hqid
        rw [hrecs] at hq
        rcases mem_dictSet _ _ _ q hq with hcase | hcase
        · subst hcase
          exact absurd (build_snippet_id_inj relative j i hqid) (by omega)
        · exact hfut i (by omega) (by simp only [List.length_cons]; omega) q hcase hqid
      obtain ⟨K1, K2, K3, K4, K5, K6, K7, K8⟩ := ih (j + 1) v u' h hkeysv hfutv
      have hcnt := dictSet_filter_count
        (fun q => decide (jGetFields q.2.metadata "path" =
          some (.jstr (as_posix relative))))
        u.records (_build_snippet_id relative j)
        ⟨_build_snippet_id relative j, _normalise_embedding (a :: l),
          String.mk chunk.text,
          [("path", .jstr (as_posix relative)), ("source", .jstr label),
           ("chunk_index", .jnum j), ("chunk_count", .jnum total),
           ("char_start", .jnum chunk.start), ("char_end", .jnum chunk.stop)]⟩
        (fun q hq hqid => hfut j (le_refl j) (by simp) q hq hqid)
        (by exact decide_eq_true rfl)
      refine ⟨K1, K2.trans hvfn, K3.trans hvdd, ?_, ?_, ?_, ?_, ?_⟩
      · intro d hd
        exact K4 d (hdimpres d hd)
      · intro hne0
        refine ⟨((_normalise_embedding (a :: l)).length : Int), K4 _ hvdim, ?_⟩
        rw [length_normalise]
        simp
      · rw [K6, hrecs, hcnt]
        simp only [List.length_cons]
        omega
      · intro i hi1 hi2
        by_cases hij : i = j
        · subst hij
          refine ⟨(_build_snippet_id relative i,
            ⟨_build_snippet_id relative i, _normalise_embedding (a :: l),
              String.mk chunk.text,
              [("path", .jstr (as_posix relative)), ("source", .jstr label),
               ("chunk_index", .jnum i), ("chunk_count", .jnum total),
               ("char_start", .jnum chunk.start), ("char_end", .jnum chunk.stop)]⟩),
            ?_, rfl, by exact decide_eq_true rfl⟩
          refine K8 _ ?_ ?_
          · rw [hrecs]
            exact mem_dictSet_self _ _ _
          · intro i' hi'1 hi'2 heq
            exact absurd (build_snippet_id_inj relative i i' heq) (by omega)
        · exact K7 i (by omega) (by simp only [List.length_cons] at hi2; omega)
      · intro q hq havoid
        refine K8 q ?_ ?_
        · rw [hrecs]
          exact mem_dictSet_of_ne _ _ _ q hq (havoid j (le_refl j) (by simp))
        · intro i hi1 hi2
          exact havoid i (by omega) (by simp only [List.length_cons]; omega)

lemma indexChunks_fresh_appends (relative : List String) (label : String)
    (total : Nat) :
    ∀ (chunks : List Chunker.TextChunk) (j : Nat) (u : VectorStore) (D : Int),
      u.dimension = some D → 0 < D →
      (∀ t d, 0 < d → ((u.embedding_fn t d).length : Int) = d) →
      (∀ i, j ≤ i → i < j + chunks.length → ∀ q ∈ u.records,
        q.1 ≠ _build_snippet_id relative i) →
      ∃ u', indexChunks relative label total chunks j u = (.ok (), u') ∧
        u'.records.length = u.records.length + chunks.length := by
  intro chunks
  induction chunks with
  | nil =>
    intro j u D hdim hD hfn hfresh
    exact ⟨u, rfl, by simp⟩
  | cons chunk rest ih =>
    intro j u D hdim hD hfn hfresh
    have hadd := add_text_succeeds u (_build_snippet_id relative j)
      (String.mk chunk.text)
      [("path", .jstr (as_posix relative)), ("source", .jstr label),
       ("chunk_index", .jnum j), ("chunk_count", .jnum total),
       ("char_start", .jnum chunk.start), ("char_end", .jnum chunk.stop)]
      D hdim hD (hfn (String.mk chunk.text) D hD)
    rw [indexChunks, hadd]
    have h2 : ({ u with
        records := dictSet u.records (_build_snippet_id relative j)
          ⟨_build_snippet_id relative j,
            _normalise_embedding (u.embedding_fn (String.mk chunk.text) D),
            String.mk chunk.text,
            [("path", .jstr (as_posix relative)), ("source", .jstr label),
             ("chunk_index", .jnum j), ("chunk_count", .jnum total),
             ("char_start", .jnum chunk.start), ("char_end", .jnum chunk.stop)]⟩
        dirty := true } : VectorStore).records.length = u.records.length + 1 :=
      dictSet_length_fresh _ _ _
        (fun q hq => hfresh j (le_refl j) (by simp) q hq)
    obtain ⟨u', hu', hlen'⟩ := ih (j + 1)
      { u with
        records := dictSet u.records (_build_snippet_id relative j)
          ⟨_build_snippet_id relative j,
            _normalise_embedding (u.embedding_fn (String.mk chunk.text) D),
            String.mk chunk.text,
            [("path", .jstr (as_posix relative)), ("source", .jstr label),
             ("chunk_index", .jnum j), ("chunk_count", .jnum total),
             ("char_start", .jnum chunk.start), ("char_end", .jnum chunk.stop)]⟩
        dirty := true }
      D hdim hD hfn (by
        intro i hi1 hi2 q hq
        rcases mem_dictSet _ _ _ q hq with hcase | hcase
        · subst hcase
          intro heq
          exact absurd (build_snippet_id_inj relative j i heq) (by omega)
        · exact hfresh i (by omega) (by simp only [List.length_cons]; omega) q hcase)
    refine ⟨u', hu', ?_⟩
    rw [hlen', h2]
    simp only [List.length_cons]
    omega

lemma filter_length_split {α : Type} (p : α → Bool) (l : List α) :
    (l.filter p).length + (l.filter (fun a => !(p a))).length = l.length := by
  induction l with
  | nil => rfl
  | cons a rest ih =>
    by_cases hp : p a = true <;> simp [List.filter_cons, hp] <;> omega

end Indexing

namespace Indexing

open Store

lemma filter_not_filter {α : Type} (p : α → Bool) (l : List α) :
    (l.filter (fun a => !(p a))).filter p = [] := by
  induction l with
  | nil => rfl
  | cons a rest ih =>
    by_cases hp : p a = true <;> simp [List.filter_cons, hp, ih]

/-- C8: calling `index_file` twice on the same unchanged file (same store,
path, root, chunk size and overlap) returns the same chunk count both times
and does not duplicate records: each call deletes every record whose
metadata path equals the file's relative POSIX path before upserting one
record per chunk, so the store's total record count after the second call
equals the count after the first.  The store's embedding function is
assumed to produce vectors of the requested positive dimension (the
property of the default hashing embedder), and the store's record keys are
unique (the dict invariant). -/
theorem index_file_idempotent (text : List Char) (path root : List String)
    (chunk_size overlap : Int) (s : VectorStore)
    (hfn : ∀ t d, 0 < d → ((s.embedding_fn t d).length : Int) = d)
    (hkeys : (s.records.map Prod.fst).Nodup)
    (n₁ : Nat) (s₁ : VectorStore)
    (h1 : index_file text path root chunk_size overlap s = (.ok n₁, s₁)) :
    ∃ s₂, index_file text path root chunk_size overlap s₁ = (.ok n₁, s₂) ∧
      s₂.records.length = s₁.records.length := by
  unfold index_file at h1 ⊢
  rcases hrel : relative_to path root with e | relative
  · rw [hrel] at h1
    simp at h1
  rw [hrel] at h1
  cases relative with
  | nil => simp at h1
  | cons top rp =>
    dsimp only at h1 ⊢
    by_cases htop : top ∈ ALLOWED_ROOTS
    case neg =>
      rw [if_pos htop] at h1 ⊢
      simp only [Prod.mk.injEq, Except.ok.injEq] at h1
      obtain ⟨rfl, rfl⟩ := h1
      exact ⟨s, rfl, rfl⟩
    case pos =>
      rw [if_neg (not_not_intro htop)] at h1 ⊢
      rcases hct : Chunker.chunk_text text chunk_size overlap with m | chunks
      · rw [hct] at h1
        simp at h1
      rw [hct] at h1
      dsimp only at h1 ⊢
      unfold delete_by_path at h1 ⊢
      simp only [_detect_source] at h1 ⊢
      rcases hic : indexChunks (top :: rp) top chunks.length chunks 0
          (delete_where s (fun record => decide (jGetFields record.metadata "path" =
            some (.jstr (as_posix (top :: rp)))))).2 with ⟨r, w⟩
      rw [hic] at h1
      cases r with
      | error e => simp at h1
      | ok u0 =>
        cases u0
        dsimp only at h1
        simp only [Prod.mk.injEq, Except.ok.injEq] at h1
        obtain ⟨rfl, rfl⟩ := h1
        have hrec0 : (delete_where s (fun record => decide (jGetFields record.metadata "path" =
              some (.jstr (as_posix (top :: rp)))))).2.records =
            s.records.filter (fun q => !(decide (jGetFields q.2.metadata "path" =
              some (.jstr (as_posix (top :: rp)))))) :=
          delete_where_records s _ hkeys
        have hkeys0 : (((delete_where s (fun record => decide (jGetFields record.metadata "path" =
              some (.jstr (as_posix (top :: rp)))))).2.records).map Prod.fst).Nodup := by
          rw [hrec0]
          exact nodup_keys_filter _ _ hkeys
        have hfut0 : ∀ i, 0 ≤ i → i < 0 + chunks.length →
            ∀ q ∈ (delete_where s (fun record => decide (jGetFields record.metadata "path" =
              some (.jstr (as_posix (top :: rp)))))).2.records,
            q.1 = _build_snippet_id (top :: rp) i →
            (decide (jGetFields q.2.metadata "path" =
              some (.jstr (as_posix (top :: rp))))) = false := by
          intro i hi1 hi2 q hq hqid
          rw [hrec0] at hq
          have := (List.mem_filter.mp hq).2
          simpa using this
        obtain ⟨K1, K2, K3, K4, K5, K6, K7, K8⟩ :=
          indexChunks_ok_spec (top :: rp) top chunks.length chunks 0 _ w hic
            hkeys0 hfut0
        have hcount0 : ((delete_where s (fun record => decide (jGetFields record.metadata "path" =
              some (.jstr (as_posix (top :: rp)))))).2.records.filter
            (fun q => decide (jGetFields q.2.metadata "path" =
              some (.jstr (as_posix (top :: rp)))))).length = 0 := by
          rw [hrec0, filter_not_filter]
          rfl
        have hcountw : (w.records.filter (fun q => decide (jGetFields q.2.metadata "path" =
            some (.jstr (as_posix (top :: rp)))))).length = chunks.length := by
          rw [K6, hcount0]
          omega
        have hrec1 : (delete_where w (fun record => decide (jGetFields record.metadata "path" =
              some (.jstr (as_posix (top :: rp)))))).2.records =
            w.records.filter (fun q => !(decide (jGetFields q.2.metadata "path" =
              some (.jstr (as_posix (top :: rp)))))) :=
          delete_where_records w _ K1
        have hsplit := filter_length_split
          (fun q => decide (jGetFields q.2.metadata "path" =
            some (.jstr (as_posix (top :: rp))))) w.records
        by_cases hemp : chunks = []
        · subst hemp
          refine ⟨(delete_where w (fun record => decide (jGetFields record.metadata "path" =
              some (.jstr (as_posix (top :: rp)))))).2, ?_, ?_⟩
          · rw [indexChunks]
          · rw [hrec1]
            simp only [List.length_nil] at hcountw
            omega
        · obtain ⟨D, hwdim, hD⟩ := K5 hemp
          have hdim1 : (delete_where w (fun record => decide (jGetFields record.metadata "path" =
              some (.jstr (as_posix (top :: rp)))))).2.dimension = some D := hwdim
          have hfn1 : ∀ t d, 0 < d →
              (((delete_where w (fun record => decide (jGetFields record.metadata "path" =
                some (.jstr (as_posix (top :: rp)))))).2.embedding_fn t d).length : Int) = d := by
            intro t d hd
            have : (delete_where w (fun record => decide (jGetFields record.metadata "path" =
                some (.jstr (as_posix (top :: rp)))))).2.embedding_fn = s.embedding_fn := K2
            rw [this]
            exact hfn t d hd
          have hfresh1 : ∀ i, 0 ≤ i → i < 0 + chunks.length →
              ∀ q ∈ (delete_where w (fun record => decide (jGetFields record.metadata "path" =
                some (.jstr (as_posix (top :: rp)))))).2.records,
              q.1 ≠ _build_snippet_id (top :: rp) i := by
            intro i hi1 hi2 q hq heq
            rw [hrec1] at hq
            obtain ⟨hqw, hqP⟩ := List.mem_filter.mp hq
            obtain ⟨r, hr, hrid, hrP⟩ := K7 i hi1 hi2
            have : q = r := key_unique w.records K1 q hqw r hr (heq.trans hrid.symm)
            subst this
            rw [hrP] at hqP
            simp at hqP
          obtain ⟨s₂, hs₂, hlen₂⟩ := indexChunks_fresh_appends (top :: rp) top
            chunks.length chunks 0 _ D hdim1 hD hfn1 hfresh1
          refine ⟨s₂, ?_, ?_⟩
          · rw [hs₂]
          · rw [hlen₂, hrec1]
            omega

end Indexing

namespace Indexing

open Store

/-- Witness for the idempotence theorem at a concrete input: the path
`src/x` is outside the allowed roots, so both calls return a zero chunk
count and leave the store untouched. -/
theorem index_file_idempotent_witness :
    ∃ s₂, index_file ['h', 'i'] ["src", "x"] [] 4 1
        (initStore 1 (fun _ d => List.replicate d.toNat 1)) = (.ok 0, s₂) ∧
      s₂.records.length =
        (initStore 1 (fun _ d => List.replicate d.toNat 1)).records.length :=
  index_file_idempotent ['h', 'i'] ["src", "x"] [] 4 1
    (initStore 1 (fun _ d => List.replicate d.toNat 1))
    (by intro t d hd; simp [initStore]; omega)
    List.nodup_nil
    0 (initStore 1 (fun _ d => List.replicate d.toNat 1)) rfl

end Indexing
